import Mathlib

/-!
# Verification of the x-post-collector pipeline

Shallow embedding of the Python sources of the `x-post-collector` repository
(Discord → Google Sheets → Gemini → X/Typefully → Archive pipeline) together
with proofs settling the frozen claims C1–C10.

Conventions used throughout:
* Python lists of strings become `List String`; a spreadsheet tab is a
  `List (List String)` of rows.
* Python `datetime` values are modelled at second precision as an absolute
  count of seconds; `date()` is the count of whole days.
* External I/O (Discord fetches, Gemini calls) is modelled by oracle
  functions passed as parameters; everything deterministic in the source is
  translated directly.
-/

namespace XPost

/-! ## Character and string utilities (Python semantics)

`isPySpace` is the set of characters treated as whitespace both by Python's
`str.strip()` and by `\s` in a `str` regular expression (CPython's
`Py_UNICODE_ISSPACE`).  Note that U+200B ZERO WIDTH SPACE is *not* Python
whitespace. -/

def isPySpace (c : Char) : Bool :=
  let n := c.toNat
  (9 ≤ n && n ≤ 13) || (28 ≤ n && n ≤ 31) || n = 32 || n = 133 || n = 160 ||
  n = 5760 || (8192 ≤ n && n ≤ 8202) || n = 8232 || n = 8233 || n = 8239 ||
  n = 8287 || n = 12288

/-- Characters matched by the regular expression class `[ \t]`. -/
def isST (c : Char) : Bool := c = ' ' || c = '\t'

/-- Removal of a trailing run of characters satisfying `p`. -/
def dropTrailWhile (p : Char → Bool) (l : List Char) : List Char :=
  (l.reverse.dropWhile p).reverse

/-- Python `str.strip()` on a list of characters. -/
def pystrip (l : List Char) : List Char :=
  dropTrailWhile isPySpace (l.dropWhile isPySpace)

/-- Python `str.strip()` on a `String`. -/
def pystripStr (s : String) : String := ⟨pystrip s.data⟩

/-- Python `pat in hay` (substring test) on lists of characters. -/
def listContains (hay pat : List Char) : Bool :=
  hay.tails.any (fun t => pat.isPrefixOf t)

/-- Python `pat in hay` (substring test) on strings. -/
def strContains (hay pat : String) : Bool := listContains hay.data pat.data

/-- Python `str.lower()` (ASCII range, which covers every header and error
message the source lowercases). -/
def strLower (s : String) : String := ⟨s.data.map Char.toLower⟩

/-- Python `s.startswith(pat)`. -/
def strStartsWith (s pat : String) : Bool := pat.data.isPrefixOf s.data

/-- Decimal digits accumulated left to right; `none` on a non-digit. -/
def digitsVal : Nat → List Char → Option Nat
  | acc, [] => some acc
  | acc, c :: cs => if c.isDigit then digitsVal (acc * 10 + (c.toNat - 48)) cs else none

/-- Python `int(s)` on an optional-sign decimal literal (the shape of every
integer setting), `none` otherwise. -/
def pyIntParse (s : String) : Option Int :=
  match s.data with
  | [] => none
  | '-' :: rest => if rest.isEmpty then none else (digitsVal 0 rest).map (fun n => -(n : Int))
  | l => (digitsVal 0 l).map (fun n => (n : Int))

/-! ## `DiscordHandler.clean_content` (src/modules/discord_handler.py:150-179)

The method is the composition of three stages:
1. `text.replace('​', '')` (applied twice in the source to the same
   character, which is one filter);
2. `re.sub(r'\[@\s*([^\]]+)\]', r'[@\1]', text)`;
3. per-line cleanup `re.sub(r'[ \t]+', ' ', line).strip()` over
   `text.split('\n')`, re-joined with `'\n'` and globally `.strip()`-ped. -/

def zwsp : Char := Char.ofNat 8203

/-- Stage 1: removal of every U+200B character (the source performs the same
single-character `replace` twice; a second pass is the identity). -/
def removeZWSP (l : List Char) : List Char := l.filter (fun c => c ≠ zwsp)

/-- Splits a character list at the first `']'`: returns the (close-free)
portion before it and the portion after it, or `none` if there is no `']'`. -/
def splitClose : List Char → Option (List Char × List Char)
  | [] => none
  | c :: cs =>
    if c = ']' then some ([], cs)
    else
      match splitClose cs with
      | none => none
      | some (b, a) => some (c :: b, a)

/-- The capture group of one match of `\[@\s*([^\]]+)\]`: the greedy `\s*`
swallows the whitespace after `[@`, except that when everything up to the
`']'` is whitespace, backtracking leaves exactly the last whitespace
character in the group.  (`before` is nonempty at every use; the `' '`
default of `getLastD` is never taken.) -/
def msubGroup (before : List Char) : List Char :=
  let g := before.dropWhile isPySpace
  if g.isEmpty then [before.getLastD ' '] else g

/-- Stage 2, fuelled: the scan performed by
`re.sub(r'\[@\s*([^\]]+)\]', r'[@\1]', text)`.  A match starting at `[@`
requires a later `']'` with at least one character in between; the
replacement is `[@` + group + `]`.  On failure the scan advances one
character (`[` and `@` cannot begin a new match, so two characters are
emitted at once).  Fuel bounded by the input length suffices, as proved
below. -/
def msubF : Nat → List Char → List Char
  | 0, l => l
  | _ + 1, [] => []
  | _ + 1, [c] => [c]
  | f + 1, a :: b :: rest =>
    if a = '[' ∧ b = '@' then
      match splitClose rest with
      | none => '[' :: '@' :: msubF f rest
      | some (before, after) =>
        if before.isEmpty then '[' :: '@' :: msubF f rest
        else '[' :: '@' :: (msubGroup before ++ ']' :: msubF f after)
    else a :: msubF f (b :: rest)

/-- Stage 2 of `clean_content`: the mention-bracket substitution. -/
def msub (l : List Char) : List Char := msubF l.length l

/-- One pass of `re.sub(r'[ \t]+', ' ', line)`: the flag records whether the
scan is inside a space/tab run whose single `' '` has already been emitted. -/
def collapseGo : Bool → List Char → List Char
  | _, [] => []
  | inRun, c :: cs =>
    if isST c then
      if inRun then collapseGo true cs else ' ' :: collapseGo true cs
    else c :: collapseGo false cs

/-- `re.sub(r'[ \t]+', ' ', line)`. -/
def collapseWs (l : List Char) : List Char := collapseGo false l

/-- `re.sub(r'[ \t]+', ' ', line).strip()`, the per-line cleanup. -/
def lineClean (l : List Char) : List Char := pystrip (collapseWs l)

/-- Python `text.split('\n')` on character lists. -/
def splitNl : List Char → List (List Char)
  | [] => [[]]
  | c :: cs =>
    if c = '\n' then [] :: splitNl cs
    else
      match splitNl cs with
      | [] => [[c]]
      | l :: ls => (c :: l) :: ls

/-- Python `'\n'.join(lines)` on character lists. -/
def joinNl : List (List Char) → List Char
  | [] => []
  | [l] => l
  | l :: ls => l ++ '\n' :: joinNl ls

/-- Stage 3 of `clean_content`: line-wise cleanup and the final `.strip()`. -/
def cleanLines (l : List Char) : List Char :=
  pystrip (joinNl ((splitNl l).map lineClean))

/-- `DiscordHandler.clean_content` on character lists. -/
def clean_content_core (l : List Char) : List Char :=
  cleanLines (msub (removeZWSP l))

/-- `DiscordHandler.clean_content` (src/modules/discord_handler.py:150-179). -/
def clean_content (s : String) : String := ⟨clean_content_core s.data⟩

/-- Whitespace other than `'\n'`: the characters that the final `.strip()`
of `clean_content` removes from within the first and last line (a removed
`'\n'` is treated separately in the idempotence proof). -/
def lws (c : Char) : Bool := isPySpace c && !(c == '\n')

/-- One-way reduction used for the idempotence proof of `clean_content`:
`Red0 u v` holds when `v` is obtained from `u` left to right by keeping a
character, replacing a whitespace character by a whitespace character, or
deleting a whitespace character in front of a position whose remaining
output starts with whitespace.  Stage 3 of `clean_content` (modulo the
outer strip) relates input to output this way, and fixed points of the
stage-2 substitution are shown to be preserved along it. -/
inductive Red0 : List Char → List Char → Prop where
  | nil : Red0 [] []
  | keep (c : Char) {xs ys : List Char} : Red0 xs ys → Red0 (c :: xs) (c :: ys)
  | subst {c d : Char} {xs ys : List Char} :
      isPySpace c = true → isPySpace d = true → Red0 xs ys →
      Red0 (c :: xs) (d :: ys)
  | dropW {c d : Char} {xs ys : List Char} :
      isPySpace c = true → isPySpace d = true → Red0 xs (d :: ys) →
      Red0 (c :: xs) (d :: ys)

/-- Removal of the empty lines at both ends of a line list (the effect of
the final `.strip()` on a join of already stripped lines). -/
def trimEmptyLines (ms : List (List Char)) : List (List Char) :=
  ((ms.dropWhile List.isEmpty).reverse.dropWhile List.isEmpty).reverse

/-! ## `DiscordHandler.fetch_twitter_posts_with_retry`
(src/modules/discord_handler.py:229-279)

The fetch+filter+format block is modelled by an oracle indexed by the
attempt number (0-based); one run of the body either returns posts, raises a
`discord.HTTPException`, or raises some other exception. -/

/-- `TwitterPost` dataclass (src/modules/discord_handler.py:16-24). -/
structure TwitterPost where
  date : String
  time : String
  content : String
  post_link : String
  author : String
  author_link : String
deriving DecidableEq

/-- Outcome of one attempt of the `try` block of
`fetch_twitter_posts_with_retry`. -/
inductive FetchOutcome where
  | ok (posts : List TwitterPost)
  | httpError (msg : String)
  | otherError (msg : String)

/-- Trace of one call of `fetch_twitter_posts_with_retry`: how many times the
underlying fetch ran, the sleeps performed between attempts (in seconds, in
order), and the returned posts or the exception that escaped. -/
structure RetryTrace where
  attempts : Nat
  sleeps : List Nat
  outcome : Except String (List TwitterPost)

/-- The retry loop.  `remaining` is the number of retries still allowed
(`max_retries - retry_count`), `attempt` the 0-based index of the attempt
about to run, `backoff` the current backoff in seconds, `sleeps` the sleeps
performed so far (reversed). -/
def fetchRetryGo (fetch : Nat → FetchOutcome) :
    Nat → Nat → Nat → List Nat → RetryTrace
  | remaining, attempt, backoff, sleeps =>
    match fetch attempt with
    | .ok posts => ⟨attempt + 1, sleeps.reverse, .ok posts⟩
    | .otherError m => ⟨attempt + 1, sleeps.reverse, .error m⟩
    | .httpError m =>
      match remaining with
      | 0 => ⟨attempt + 1, sleeps.reverse, .error m⟩
      | r + 1 => fetchRetryGo fetch r (attempt + 1) (backoff * 2) (backoff :: sleeps)

/-- `DiscordHandler.fetch_twitter_posts_with_retry`
(src/modules/discord_handler.py:229-279): `retry_count` starts at 0,
`backoff_seconds` at 1; a `discord.HTTPException` increments `retry_count`
and re-raises once `retry_count > max_retries`, otherwise sleeps and doubles
the backoff; any other exception re-raises immediately. -/
def fetch_twitter_posts_with_retry (fetch : Nat → FetchOutcome)
    (max_retries : Nat) : RetryTrace :=
  fetchRetryGo fetch max_retries 0 1 []

/-! ## `RateLimitManager` (src/modules/gemini_analyzer.py:38-92)

`datetime.now()` is modelled as an absolute number of seconds.  Crucially,
the source tests `(now - self.last_minute).seconds >= 60`, and the
`seconds` field of a Python `timedelta` is the difference *modulo one day*
(a `timedelta` is normalised so that `0 <= seconds < 86400`), not the total
elapsed seconds. -/

/-- `datetime.date()` as whole days of the absolute second count. -/
def pyDate (t : Nat) : Nat := t / 86400

/-- The `seconds` field of the Python `timedelta` `b - a`. -/
def tdSeconds (a b : Nat) : Nat := (((b : Int) - (a : Int)) % 86400).toNat

/-- State of `RateLimitManager` (src/modules/gemini_analyzer.py:38-46). -/
structure RateLimitManager where
  daily_limit : Nat
  daily_requests : Nat
  minute_requests : Nat
  last_reset : Nat
  last_minute : Nat
deriving DecidableEq

/-- `RateLimitManager.can_make_request`
(src/modules/gemini_analyzer.py:48-71), returning the updated state and the
boolean verdict. -/
def RateLimitManager.can_make_request (m : RateLimitManager) (now : Nat) :
    RateLimitManager × Bool :=
  let m1 :=
    if pyDate now > pyDate m.last_reset then
      { m with daily_requests := 0, last_reset := now }
    else m
  let m2 :=
    if tdSeconds m1.last_minute now ≥ 60 then
      { m1 with minute_requests := 0, last_minute := now }
    else m1
  if m2.daily_requests ≥ m2.daily_limit then (m2, false)
  else if m2.minute_requests ≥ 14 then (m2, false)
  else (m2, true)

/-- `RateLimitManager.record_request` (src/modules/gemini_analyzer.py:73-77). -/
def RateLimitManager.record_request (m : RateLimitManager) : RateLimitManager :=
  { m with daily_requests := m.daily_requests + 1,
           minute_requests := m.minute_requests + 1 }

/-- Claim C6 as stated: the minute counter is reset whenever at least 60
seconds have actually elapsed since the minute window started (true elapsed
time, not the `timedelta.seconds` component). -/
def claimC6_can_make_request (m : RateLimitManager) (now : Nat) :
    RateLimitManager × Bool :=
  let m1 :=
    if pyDate now > pyDate m.last_reset then
      { m with daily_requests := 0, last_reset := now }
    else m
  let m2 :=
    if (now : Int) - (m1.last_minute : Int) ≥ 60 then
      { m1 with minute_requests := 0, last_minute := now }
    else m1
  if m2.daily_requests ≥ m2.daily_limit then (m2, false)
  else if m2.minute_requests ≥ 14 then (m2, false)
  else (m2, true)

/-- Daily counter after the conditional daily rollover of
`can_make_request`. -/
def dailyAfterReset (m : RateLimitManager) (now : Nat) : Nat :=
  if pyDate now > pyDate m.last_reset then 0 else m.daily_requests

/-- Minute counter after the conditional minute rollover of
`can_make_request` (the rollover condition is the `timedelta.seconds`
component, i.e. the elapsed time modulo one day). -/
def minuteAfterReset (m : RateLimitManager) (now : Nat) : Nat :=
  if tdSeconds m.last_minute now ≥ 60 then 0 else m.minute_requests

/-! ## `AsyncDiscordCollector._get_time_window`
(src/modules/scheduler.py:101-129)

Timestamps as absolute seconds (`Int`); `timedelta(days=d)` is `d * 86400`
seconds and `timedelta(hours=h)` is `h * 3600` seconds.  The relevant
configuration keys of the collector's config dict are carried in a record. -/

/-- The configuration values consulted by `_get_time_window`. -/
structure CollectorConfig where
  collection_mode : String
  lookback_days : Int
  lookback_hours : Int
deriving DecidableEq

/-- `AsyncDiscordCollector._get_time_window`
(src/modules/scheduler.py:101-129).  Note the `since_last` branch: the
source always uses `datetime.now() - timedelta(days=1)` (with the comment
"This will need to be passed from the processor / For now, default to
1 day") and never consults the spreadsheet. -/
def get_time_window (cfg : CollectorConfig) (now : Int) : Option Int :=
  if cfg.collection_mode = "daily" then some (now - cfg.lookback_days * 86400)
  else if cfg.collection_mode = "hours" then some (now - cfg.lookback_hours * 3600)
  else if cfg.collection_mode = "since_last" then some (now - 86400)
  else none

/-- Claim C4 as stated: in `since_last` mode the lower bound is the
spreadsheet's last recorded entry date whenever the sheet has one, with the
1-day fallback only when it does not. -/
def claimC4_time_window (cfg : CollectorConfig) (now : Int)
    (lastEntry : Option Int) : Option Int :=
  if cfg.collection_mode = "daily" then some (now - cfg.lookback_days * 86400)
  else if cfg.collection_mode = "hours" then some (now - cfg.lookback_hours * 3600)
  else if cfg.collection_mode = "since_last" then
    some (lastEntry.getD (now - 86400))
  else none

/-! ## Configuration loader (src/config.py) and entry point (src/main.py)

The environment is a partial map from variable names to strings; the
configuration module is the record of all module-level names defined in
`src/config.py`.  Integer-valued settings go through `int(...)`, modelled by
`pyIntParse` (module import fails on an unparsable value). -/

/-- A process environment (`os.getenv`). -/
abbrev Env := String → Option String

/-- Values stored in the ad-hoc configuration dictionary
(strings, integers, lists of strings, or Python `None`). -/
inductive PyValue where
  | str (s : String)
  | int (n : Int)
  | strList (l : List String)
  | none
deriving DecidableEq

/-- Python `int(s)` raising on an unparsable literal. -/
def pyInt (s : String) : Except String Int :=
  match pyIntParse s with
  | some n => .ok n
  | Option.none => .error ("invalid literal for int: " ++ s)

/-- The module-level names defined in src/config.py (every assignment of the
module body, in source order). -/
structure ConfigModule where
  DISCORD_TOKEN : Option String
  DISCORD_CHANNEL_ID : Option String
  GOOGLE_SHEETS_ID : Option String
  GOOGLE_SERVICE_ACCOUNT_FILE : String
  GOOGLE_SHEET_NAME : String
  SHEETS_BATCH_SIZE : Int
  SCHEDULE_TIME : String
  SCHEDULE_TIMEZONE : Option String
  DISCORD_COLLECTION_MODE : String
  DISCORD_LOOKBACK_HOURS : Int
  DISCORD_LOOKBACK_DAYS : Int
  DISCORD_FETCH_LIMIT : Int
  DISCORD_SKIP_DUPLICATES : String
  LOG_LEVEL : String
  LOG_DIR : String
  APP_NAME : String
  VERSION : String
  TWITTER_LINK_PATTERNS : List String
  SHEET_NAME : String
  SHEET_HEADERS : List String
  MAX_RETRIES : Int
  RETRY_DELAY : Int
  BATCH_SIZE : Int
  GEMINI_API_KEY : Option String
  GEMINI_MODEL : String
  GEMINI_DAILY_LIMIT : Int
  X_API_KEY : Option String
  X_API_SECRET : Option String
  X_ACCESS_TOKEN : Option String
  X_ACCESS_TOKEN_SECRET : Option String
  PUBLISHER_TYPE : String
  TYPEFULLY_API_KEY : Option String
  TYPEFULLY_SCHEDULE : String
  TYPEFULLY_HOURS_DELAY : Int
  ARCHIVE_SHEET_NAME : String
  ARCHIVE_BATCH_SIZE : Int
deriving DecidableEq

/-- Module initialisation of src/config.py against an environment.  Note
line 151: `ARCHIVE_SHEET_NAME: str = os.getenv('ARCHIVE_SHEET_NAME',
'Archive')` — the default literal is `'Archive'`, without a trailing `s`. -/
def loadConfig (env : Env) : Except String ConfigModule := do
  let sheetsBatch ← pyInt ((env "SHEETS_BATCH_SIZE").getD "100")
  let lookH ← pyInt ((env "DISCORD_LOOKBACK_HOURS").getD "24")
  let lookD ← pyInt ((env "DISCORD_LOOKBACK_DAYS").getD "1")
  let fetchLim ← pyInt ((env "DISCORD_FETCH_LIMIT").getD "200")
  let gemLim ← pyInt ((env "GEMINI_DAILY_LIMIT").getD "1400")
  let typHours ← pyInt ((env "TYPEFULLY_HOURS_DELAY").getD "0")
  let archBatch ← pyInt ((env "ARCHIVE_BATCH_SIZE").getD "50")
  .ok {
    DISCORD_TOKEN := env "DISCORD_TOKEN"
    DISCORD_CHANNEL_ID := env "DISCORD_CHANNEL_ID"
    GOOGLE_SHEETS_ID := env "GOOGLE_SHEETS_ID"
    GOOGLE_SERVICE_ACCOUNT_FILE := (env "GOOGLE_SERVICE_ACCOUNT_FILE").getD "credentials.json"
    GOOGLE_SHEET_NAME := (env "GOOGLE_SHEET_NAME").getD "Sheet1"
    SHEETS_BATCH_SIZE := sheetsBatch
    SCHEDULE_TIME := (env "SCHEDULE_TIME").getD "20:00"
    SCHEDULE_TIMEZONE := env "SCHEDULE_TIMEZONE"
    DISCORD_COLLECTION_MODE := (env "DISCORD_COLLECTION_MODE").getD "daily"
    DISCORD_LOOKBACK_HOURS := lookH
    DISCORD_LOOKBACK_DAYS := lookD
    DISCORD_FETCH_LIMIT := fetchLim
    DISCORD_SKIP_DUPLICATES := (env "DISCORD_SKIP_DUPLICATES").getD "true"
    LOG_LEVEL := (env "LOG_LEVEL").getD "INFO"
    LOG_DIR := (env "LOG_DIR").getD "logs"
    APP_NAME := "Discord to Google Sheets Bot"
    VERSION := "2.0.1"
    TWITTER_LINK_PATTERNS := ["twitter", "x"]
    SHEET_NAME := "Sheet1"
    SHEET_HEADERS := ["Date", "Time", "Content", "Post Link", "Author", "Author Link"]
    MAX_RETRIES := 3
    RETRY_DELAY := 5
    BATCH_SIZE := 100
    GEMINI_API_KEY := env "GEMINI_API_KEY"
    GEMINI_MODEL := (env "GEMINI_MODEL").getD "gemini-1.5-flash"
    GEMINI_DAILY_LIMIT := gemLim
    X_API_KEY := env "X_API_KEY"
    X_API_SECRET := env "X_API_SECRET"
    X_ACCESS_TOKEN := env "X_ACCESS_TOKEN"
    X_ACCESS_TOKEN_SECRET := env "X_ACCESS_TOKEN_SECRET"
    PUBLISHER_TYPE := (env "PUBLISHER_TYPE").getD "twitter"
    TYPEFULLY_API_KEY := env "TYPEFULLY_API_KEY"
    TYPEFULLY_SCHEDULE := (env "TYPEFULLY_SCHEDULE").getD "next-free-slot"
    TYPEFULLY_HOURS_DELAY := typHours
    ARCHIVE_SHEET_NAME := (env "ARCHIVE_SHEET_NAME").getD "Archive"
    ARCHIVE_BATCH_SIZE := archBatch
  }

/-- Wrapping of an optional string as a Python value. -/
def pvOptStr (o : Option String) : PyValue := o.elim PyValue.none PyValue.str

/-- Python attribute access `config.<name>`: succeeds exactly on the names
assigned in src/config.py and raises `AttributeError` otherwise. -/
def configGetattr (m : ConfigModule) (name : String) : Except String PyValue :=
  if name = "DISCORD_TOKEN" then .ok (pvOptStr m.DISCORD_TOKEN)
  else if name = "DISCORD_CHANNEL_ID" then .ok (pvOptStr m.DISCORD_CHANNEL_ID)
  else if name = "GOOGLE_SHEETS_ID" then .ok (pvOptStr m.GOOGLE_SHEETS_ID)
  else if name = "GOOGLE_SERVICE_ACCOUNT_FILE" then .ok (.str m.GOOGLE_SERVICE_ACCOUNT_FILE)
  else if name = "GOOGLE_SHEET_NAME" then .ok (.str m.GOOGLE_SHEET_NAME)
  else if name = "SHEETS_BATCH_SIZE" then .ok (.int m.SHEETS_BATCH_SIZE)
  else if name = "SCHEDULE_TIME" then .ok (.str m.SCHEDULE_TIME)
  else if name = "SCHEDULE_TIMEZONE" then .ok (pvOptStr m.SCHEDULE_TIMEZONE)
  else if name = "DISCORD_COLLECTION_MODE" then .ok (.str m.DISCORD_COLLECTION_MODE)
  else if name = "DISCORD_LOOKBACK_HOURS" then .ok (.int m.DISCORD_LOOKBACK_HOURS)
  else if name = "DISCORD_LOOKBACK_DAYS" then .ok (.int m.DISCORD_LOOKBACK_DAYS)
  else if name = "DISCORD_FETCH_LIMIT" then .ok (.int m.DISCORD_FETCH_LIMIT)
  else if name = "DISCORD_SKIP_DUPLICATES" then .ok (.str m.DISCORD_SKIP_DUPLICATES)
  else if name = "LOG_LEVEL" then .ok (.str m.LOG_LEVEL)
  else if name = "LOG_DIR" then .ok (.str m.LOG_DIR)
  else if name = "APP_NAME" then .ok (.str m.APP_NAME)
  else if name = "VERSION" then .ok (.str m.VERSION)
  else if name = "TWITTER_LINK_PATTERNS" then .ok (.strList m.TWITTER_LINK_PATTERNS)
  else if name = "SHEET_NAME" then .ok (.str m.SHEET_NAME)
  else if name = "SHEET_HEADERS" then .ok (.strList m.SHEET_HEADERS)
  else if name = "MAX_RETRIES" then .ok (.int m.MAX_RETRIES)
  else if name = "RETRY_DELAY" then .ok (.int m.RETRY_DELAY)
  else if name = "BATCH_SIZE" then .ok (.int m.BATCH_SIZE)
  else if name = "GEMINI_API_KEY" then .ok (pvOptStr m.GEMINI_API_KEY)
  else if name = "GEMINI_MODEL" then .ok (.str m.GEMINI_MODEL)
  else if name = "GEMINI_DAILY_LIMIT" then .ok (.int m.GEMINI_DAILY_LIMIT)
  else if name = "X_API_KEY" then .ok (pvOptStr m.X_API_KEY)
  else if name = "X_API_SECRET" then .ok (pvOptStr m.X_API_SECRET)
  else if name = "X_ACCESS_TOKEN" then .ok (pvOptStr m.X_ACCESS_TOKEN)
  else if name = "X_ACCESS_TOKEN_SECRET" then .ok (pvOptStr m.X_ACCESS_TOKEN_SECRET)
  else if name = "PUBLISHER_TYPE" then .ok (.str m.PUBLISHER_TYPE)
  else if name = "TYPEFULLY_API_KEY" then .ok (pvOptStr m.TYPEFULLY_API_KEY)
  else if name = "TYPEFULLY_SCHEDULE" then .ok (.str m.TYPEFULLY_SCHEDULE)
  else if name = "TYPEFULLY_HOURS_DELAY" then .ok (.int m.TYPEFULLY_HOURS_DELAY)
  else if name = "ARCHIVE_SHEET_NAME" then .ok (.str m.ARCHIVE_SHEET_NAME)
  else if name = "ARCHIVE_BATCH_SIZE" then .ok (.int m.ARCHIVE_BATCH_SIZE)
  else .error ("module 'config' has no attribute '" ++ name ++ "'")

/-- Python `getattr(config, name, default)`. -/
def configGetattrD (m : ConfigModule) (name : String) (d : PyValue) : PyValue :=
  match configGetattr m name with
  | .ok v => v
  | .error _ => d

/-- `build_config_dict` (src/main.py:61-108): the dictionary literal's value
expressions evaluate in source order; the entry for `GEMINI_GENERATION_MODE`
(line 94) is a direct attribute access `config.GEMINI_GENERATION_MODE`,
unlike the `getattr(..., default)` accesses used for the Discord-collection
settings. -/
def build_config_dict (m : ConfigModule) : Except String (List (String × PyValue)) := do
  let vTok ← configGetattr m "DISCORD_TOKEN"
  let vChan ← configGetattr m "DISCORD_CHANNEL_ID"
  let vSid ← configGetattr m "GOOGLE_SHEETS_ID"
  let vSaf ← configGetattr m "GOOGLE_SERVICE_ACCOUNT_FILE"
  let vSnm ← configGetattr m "GOOGLE_SHEET_NAME"
  let vSbs ← configGetattr m "SHEETS_BATCH_SIZE"
  let vSt ← configGetattr m "SCHEDULE_TIME"
  let vStz := configGetattrD m "SCHEDULE_TIMEZONE" PyValue.none
  let vDcm := configGetattrD m "DISCORD_COLLECTION_MODE" (.str "daily")
  let vDlh := configGetattrD m "DISCORD_LOOKBACK_HOURS" (.int 24)
  let vDld := configGetattrD m "DISCORD_LOOKBACK_DAYS" (.int 1)
  let vDfl := configGetattrD m "DISCORD_FETCH_LIMIT" (.int 200)
  let vDsd := configGetattrD m "DISCORD_SKIP_DUPLICATES" (.str "true")
  let vGk ← configGetattr m "GEMINI_API_KEY"
  let vGm ← configGetattr m "GEMINI_MODEL"
  let vGdl ← configGetattr m "GEMINI_DAILY_LIMIT"
  let vGgm ← configGetattr m "GEMINI_GENERATION_MODE"
  let vPt ← configGetattr m "PUBLISHER_TYPE"
  let vXk ← configGetattr m "X_API_KEY"
  let vXs ← configGetattr m "X_API_SECRET"
  let vXat ← configGetattr m "X_ACCESS_TOKEN"
  let vXats ← configGetattr m "X_ACCESS_TOKEN_SECRET"
  let vTk ← configGetattr m "TYPEFULLY_API_KEY"
  let vThd ← configGetattr m "TYPEFULLY_HOURS_DELAY"
  let vAsn ← configGetattr m "ARCHIVE_SHEET_NAME"
  let vAbs ← configGetattr m "ARCHIVE_BATCH_SIZE"
  .ok [("DISCORD_TOKEN", vTok), ("DISCORD_CHANNEL_ID", vChan),
       ("GOOGLE_SHEETS_ID", vSid), ("GOOGLE_SERVICE_ACCOUNT_FILE", vSaf),
       ("GOOGLE_SHEET_NAME", vSnm), ("SHEETS_BATCH_SIZE", vSbs),
       ("SCHEDULE_TIME", vSt), ("SCHEDULE_TIMEZONE", vStz),
       ("DISCORD_COLLECTION_MODE", vDcm), ("DISCORD_LOOKBACK_HOURS", vDlh),
       ("DISCORD_LOOKBACK_DAYS", vDld), ("DISCORD_FETCH_LIMIT", vDfl),
       ("DISCORD_SKIP_DUPLICATES", vDsd), ("GEMINI_API_KEY", vGk),
       ("GEMINI_MODEL", vGm), ("GEMINI_DAILY_LIMIT", vGdl),
       ("GEMINI_GENERATION_MODE", vGgm), ("PUBLISHER_TYPE", vPt),
       ("X_API_KEY", vXk), ("X_API_SECRET", vXs), ("X_ACCESS_TOKEN", vXat),
       ("X_ACCESS_TOKEN_SECRET", vXats), ("TYPEFULLY_API_KEY", vTk),
       ("TYPEFULLY_HOURS_DELAY", vThd), ("ARCHIVE_SHEET_NAME", vAsn),
       ("ARCHIVE_BATCH_SIZE", vAbs)]

/-! ## Archive handler (src/modules/archive_handler.py)

The spreadsheet is a family of tabs, each a list of rows. -/

/-- A spreadsheet's tabs by name. -/
abbrev Tabs := String → List (List String)

/-- A working-sheet tab. -/
abbrev Sheet := List (List String)

/-- `ArchiveHandler.__init__` state (src/modules/archive_handler.py:19-28):
both tab names are hardcoded literals, independent of configuration. -/
structure ArchiveHandler where
  archive_sheet_name : String
  source_sheet_name : String
deriving DecidableEq

/-- The constructed `ArchiveHandler` (src/modules/archive_handler.py:26-28). -/
def ArchiveHandler.init : ArchiveHandler := ⟨"Archives", "Sheet1"⟩

/-- One element of the list returned by
`ArchiveHandler.get_processed_posts`. -/
structure ProcessedPost where
  row_index : Nat
  data : List String
  headers : List String
deriving DecidableEq

/-- Python `l.index(x) if x in l else -1` (first match). -/
def pyIndexOf (l : List String) (x : String) : Int :=
  match l.findIdx? (fun h => h = x) with
  | some i => (i : Int)
  | none => -1

/-- First index whose header satisfies `p`, or `-1`. -/
def firstIdxWhere (l : List String) (p : String → Bool) : Int :=
  match l.findIdx? p with
  | some i => (i : Int)
  | none => -1

/-- Python `row[i] if i >= 0 and len(row) > i else ''`. -/
def cellOr (row : List String) (i : Int) : String :=
  if 0 ≤ i ∧ i < (row.length : Int) then row.getD i.toNat "" else ""

/-- The shared publication receipt of an archive batch
(src/modules/archive_handler.py:184-200): the first non-blank value found
under a header containing `publication receipt` (case-insensitive). -/
def findFirstReceipt : List ProcessedPost → String
  | [] => ""
  | p :: ps =>
    let idx := firstIdxWhere p.headers (fun h => strContains (strLower h) "publication receipt")
    if 0 ≤ idx ∧ idx < (p.data.length : Int) then
      let v := p.data.getD idx.toNat ""
      if v ≠ "" ∧ pystripStr v ≠ "" then pystripStr v else findFirstReceipt ps
    else findFirstReceipt ps

/-- One archive row (src/modules/archive_handler.py:203-239). -/
def buildArchiveRow (receipt nowIso : String) (p : ProcessedPost) : List String :=
  let headers_lower := p.headers.map strLower
  let date_idx := pyIndexOf headers_lower "date"
  let time_idx := firstIdxWhere headers_lower (fun h => strContains h "time")
  let author_idx := pyIndexOf headers_lower "author"
  let post_link_idx := pyIndexOf headers_lower "post link"
  let content_idx := pyIndexOf headers_lower "content"
  let ai_summary_idx := firstIdxWhere p.headers (fun h => strLower h = "ai summary")
  [cellOr p.data date_idx, cellOr p.data time_idx, cellOr p.data author_idx,
   cellOr p.data post_link_idx, cellOr p.data content_idx,
   cellOr p.data ai_summary_idx, nowIso, receipt]

/-- `ArchiveHandler.archive_posts` (src/modules/archive_handler.py:167-265):
builds the archive rows and writes them starting at the first free row of
the tab named `self.archive_sheet_name` (an append); returns the count
archived and the updated tabs. -/
def ArchiveHandler.archive_posts (h : ArchiveHandler) (tabs : Tabs)
    (posts : List ProcessedPost) (nowIso : String) : Nat × Tabs :=
  if posts.isEmpty then (0, tabs)
  else
    let receipt := findFirstReceipt posts
    let archived_rows := posts.map (buildArchiveRow receipt nowIso)
    (archived_rows.length,
     fun t => if t = h.archive_sheet_name then tabs t ++ archived_rows else tabs t)

/-! ## Sheet analyzer (src/modules/gemini_analyzer.py, class `SheetAnalyzer`) -/

/-- Last index (0-based) whose header lowercases to `name`, or `-1`: the
scanning loop of `ensure_columns_exist` overwrites on repeated matches. -/
def lastIdxOfLower (headers : List String) (name : String) : Int :=
  headers.enum.foldl (fun acc p => if strLower p.2 = name then (p.1 : Int) else acc) (-1)

/-- Python `list.insert(i, x)` (clamps to append for `i ≥ len`). -/
def pyInsertAt (l : List String) (i : Nat) (x : String) : List String :=
  l.take i ++ x :: l.drop i

/-- Step of `ensure_columns_exist` ensuring the `AI Summary` column
(src/modules/gemini_analyzer.py:503-509): updated headers, resolved index,
and whether an update became necessary. -/
def ecAddSummary (headers : List String) (ai_summary_col : Int) :
    List String × Int × Bool :=
  if ai_summary_col = -1 then
    (headers ++ ["AI Summary"], (headers.length : Int), true)
  else (headers, ai_summary_col, false)

/-- Step of `ensure_columns_exist` inserting `AI Keywords` in keywords mode
(src/modules/gemini_analyzer.py:511-526): updated headers, keywords index,
adjusted processed and draft indices, and the accumulated update flag. -/
def ecAddKeywords (generation_mode : String) (headers : List String)
    (ai_summary_col ai_keywords_col ai_processed_col daily_draft_col : Int)
    (needs_update : Bool) : List String × Int × Int × Int × Bool :=
  if generation_mode = "keywords" ∧ ai_keywords_col = -1 then
    let insert_index := ai_summary_col + 1
    if insert_index ≤ (headers.length : Int) then
      (pyInsertAt headers insert_index.toNat "AI Keywords", insert_index,
       (if ai_processed_col ≥ insert_index then ai_processed_col + 1 else ai_processed_col),
       (if daily_draft_col ≥ insert_index then daily_draft_col + 1 else daily_draft_col),
       true)
    else
      (headers ++ ["AI Keywords"], (headers.length : Int),
       ai_processed_col, daily_draft_col, true)
  else (headers, ai_keywords_col, ai_processed_col, daily_draft_col, needs_update)

/-- Step of `ensure_columns_exist` inserting `AI processed`
(src/modules/gemini_analyzer.py:528-541): updated headers, processed index,
adjusted draft index, and the accumulated update flag. -/
def ecAddProcessed (headers : List String)
    (ai_summary_col ai_keywords_col ai_processed_col daily_draft_col : Int)
    (needs_update : Bool) : List String × Int × Int × Bool :=
  if ai_processed_col = -1 then
    let insert_index := max ai_summary_col ai_keywords_col + 1
    if insert_index ≤ (headers.length : Int) then
      (pyInsertAt headers insert_index.toNat "AI processed", insert_index,
       (if daily_draft_col ≥ insert_index then daily_draft_col + 1 else daily_draft_col),
       true)
    else
      (headers ++ ["AI processed"], (headers.length : Int), daily_draft_col, true)
  else (headers, ai_processed_col, daily_draft_col, needs_update)

/-- Step of `ensure_columns_exist` appending `Daily Post Draft`
(src/modules/gemini_analyzer.py:543-548). -/
def ecAddDraft (headers : List String) (daily_draft_col : Int)
    (needs_update : Bool) : List String × Int × Bool :=
  if daily_draft_col = -1 then
    (headers ++ ["Daily Post Draft"], (headers.length : Int), true)
  else (headers, daily_draft_col, needs_update)

/-- `SheetAnalyzer.ensure_columns_exist`
(src/modules/gemini_analyzer.py:469-567).  Returns the four resolved column
indices `(ai_summary_col, ai_processed_col, daily_draft_col,
ai_keywords_col)`, the resulting sheet state, and whether the sheet was
cleared and rewritten (`needs_update`). -/
def ensure_columns_exist (generation_mode : String) (sheet : Sheet) :
    (Int × Int × Int × Int) × Sheet × Bool :=
  let headers0 := match sheet with | [] => [] | r :: _ => r
  let s1 := ecAddSummary headers0 (lastIdxOfLower headers0 "ai summary")
  let s2 := ecAddKeywords generation_mode s1.1 s1.2.1
    (lastIdxOfLower headers0 "ai keywords")
    (lastIdxOfLower headers0 "ai processed")
    (lastIdxOfLower headers0 "daily post draft") s1.2.2
  let s3 := ecAddProcessed s2.1 s1.2.1 s2.2.1 s2.2.2.1 s2.2.2.2.1 s2.2.2.2.2
  let s4 := ecAddDraft s3.1 s3.2.2.1 s3.2.2.2
  let sheet2 :=
    if s4.2.2 then
      match sheet with
      | [] => [s4.1]
      | _ :: rest => s4.1 :: rest
    else sheet
  ((s1.2.1, s3.2.1, s4.2.1, s2.2.1), sheet2, s4.2.2)

/-- Row padding with empty cells up to length `n` (never truncates). -/
def padRowTo (row : List String) (n : Nat) : List String :=
  row ++ List.replicate (n - row.length) ""

/-- Setting one cell of a sheet (row and column 0-based; out-of-range is a
no-op, rows are pre-padded by the callers below as in the source). -/
def setSheetCell (rows : Sheet) (r c : Nat) (v : String) : Sheet :=
  rows.set r ((rows.getD r []).set c v)

/-- `ProjectInfo` dataclass (src/modules/gemini_analyzer.py:20-26). -/
structure ProjectInfo where
  username : String
  twitter_link : String
  bio : String
deriving DecidableEq

/-- `ProjectSummary` dataclass (src/modules/gemini_analyzer.py:28-35). -/
structure ProjectSummary where
  date : String
  project_info : ProjectInfo
  ai_summary : String
  row_index : Int
  keywords : Option String
deriving DecidableEq

/-- `SheetAnalyzer.write_summaries` (src/modules/gemini_analyzer.py:683-732):
pads every row to the widest touched column, writes each processed row's
display string (and, in keywords mode, the bare keyword list) and the
`TRUE` processed flag, then clears and rewrites the sheet. -/
def write_summaries (generation_mode : String) (all_processed : List (Int × String))
    (ai_summary_col ai_processed_col ai_keywords_col : Int) (sheet : Sheet) : Sheet :=
  if all_processed.isEmpty then sheet
  else
    let max_col := max ai_summary_col
      (max ai_processed_col (if ai_keywords_col ≠ -1 then ai_keywords_col else 0))
    let rows0 := sheet.map (fun r => padRowTo r (max_col.toNat + 1))
    all_processed.foldl (fun rows p =>
      let row_index := p.1
      let ai_analysis := p.2
      if 1 ≤ row_index ∧ row_index - 1 < (rows.length : Int) then
        let r := (row_index - 1).toNat
        let rows :=
          if generation_mode = "keywords" ∧ ai_keywords_col ≠ -1 then
            let rows :=
              if strStartsWith ai_analysis "Keywords: " then
                setSheetCell rows r ai_keywords_col.toNat
                  (ai_analysis.replace "Keywords: " "")
              else setSheetCell rows r ai_keywords_col.toNat ai_analysis
            setSheetCell rows r ai_summary_col.toNat ai_analysis
          else setSheetCell rows r ai_summary_col.toNat ai_analysis
        setSheetCell rows r ai_processed_col.toNat "TRUE"
      else rows) rows0

/-- Insertion into a sorted list of strings. -/
def insertSorted (x : String) : List String → List String
  | [] => [x]
  | y :: ys => if x ≤ y then x :: y :: ys else y :: insertSorted x ys

/-- Ascending sort of strings (Python `sorted` on the grouped dates). -/
def sortStrings (l : List String) : List String := l.foldr insertSorted []

/-- `GeminiAnalyzer.create_daily_draft`
(src/modules/gemini_analyzer.py:406-450): groups summaries by date, dates
ascending, one leaf-emoji line per project with the bare handle. -/
def create_daily_draft (generation_mode : String)
    (summaries : List ProjectSummary) : String :=
  if summaries.isEmpty then "No new projects found today."
  else
    let dates := sortStrings ((summaries.map (fun s => s.date)).eraseDups)
    let draft_lines := dates.foldl (fun acc date =>
      let projects := summaries.filter (fun s => s.date = date)
      let lines := projects.map (fun p =>
        let content :=
          if generation_mode = "keywords" ∧ p.keywords.getD "" ≠ "" then
            "[" ++ p.keywords.getD "" ++ "]"
          else p.ai_summary
        "☘️ @" ++ p.project_info.username ++ ": " ++ content ++ "\n")
      acc ++ ("🚀 New/Trending Projects on " ++ date ++ ":") :: "" :: (lines ++ [""])) []
    String.intercalate "\n" draft_lines

/-- `SheetAnalyzer.generate_and_write_daily_draft`
(src/modules/gemini_analyzer.py:734-767): ensures two rows, pads row 2 to
the draft column, writes the digest into row 2 only, rewrites the sheet. -/
def generate_and_write_daily_draft (generation_mode : String)
    (summaries : List ProjectSummary) (daily_draft_col : Int) (sheet : Sheet) : Sheet :=
  let daily_draft := create_daily_draft generation_mode summaries
  let rows := sheet ++ List.replicate (2 - sheet.length) []
  let row1 := padRowTo (rows.getD 1 []) (daily_draft_col.toNat + 1)
  rows.set 1 (row1.set daily_draft_col.toNat daily_draft)

/-! ## Workflow orchestrator (src/modules/workflow_orchestrator.py) -/

/-- The result dictionary of `WorkflowOrchestrator.run_analysis`. -/
structure AnalysisResults where
  success : Bool
  projects_found : Nat
  posts_analyzed : Nat
  errors : List String
deriving DecidableEq

/-- Python iterable unpacking `a, b, c = vals`: raises `ValueError` unless
`vals` has exactly three elements. -/
def pyUnpack3 (vals : List Int) : Except String (Int × Int × Int) :=
  match vals with
  | [a, b, c] => .ok (a, b, c)
  | _ =>
    if vals.length > 3 then .error "too many values to unpack (expected 3)"
    else .error "not enough values to unpack"

/-- `WorkflowOrchestrator.run_analysis`
(src/modules/workflow_orchestrator.py:87-136).  `hasGemini` is whether the
constructor installed an analyzer; `analyzeAll` is an oracle for
`SheetAnalyzer.analyze_all_rows` (whose outcome depends on the external AI
service), returning the positive summaries, the processed rows' display
strings, and the sheet it leaves behind.  Line 110 of the source unpacks
the return of `ensure_columns_exist` into three targets; the tuple has four
components, so the unpacking raises `ValueError` which the handler turns
into a reported failure. -/
def run_analysis (hasGemini : Bool) (generation_mode : String)
    (analyzeAll : Sheet → (List ProjectSummary × List (Int × String)) × Sheet)
    (sheet : Sheet) : AnalysisResults × Sheet :=
  if hasGemini then
    let ec := ensure_columns_exist generation_mode sheet
    let cols := ec.1
    let sheet1 := ec.2.1
    match pyUnpack3 [cols.1, cols.2.1, cols.2.2.1, cols.2.2.2] with
    | .error e =>
      ({ success := false, projects_found := 0, posts_analyzed := 0,
         errors := [e] }, sheet1)
    | .ok (ai_summary_col, ai_processed_col, daily_draft_col) =>
      let ar := analyzeAll sheet1
      let project_summaries := ar.1.1
      let all_processed := ar.1.2
      let sheet2 := ar.2
      let sheet3 :=
        if all_processed.isEmpty then sheet2
        else write_summaries generation_mode all_processed
          ai_summary_col ai_processed_col (-1) sheet2
      let sheet4 :=
        if project_summaries.isEmpty then sheet3
        else generate_and_write_daily_draft generation_mode project_summaries
          daily_draft_col sheet3
      ({ success := true, projects_found := project_summaries.length,
         posts_analyzed := all_processed.length, errors := [] }, sheet4)
  else
    ({ success := false, projects_found := 0, posts_analyzed := 0,
       errors := ["Gemini analyzer not initialized"] }, sheet)

/-- The result dictionary of `WorkflowOrchestrator.run_publishing`. -/
structure PublishingResults where
  success : Bool
  published : Bool
  url : Option String
  post_id : Option String
  errors : List String
deriving DecidableEq

/-- The result dictionary of `ArchiveHandler.run_archive_workflow`. -/
structure ArchiveResults where
  success : Bool
  posts_archived : Nat
  errors : List String
deriving DecidableEq

/-- The result dictionary of `WorkflowOrchestrator.run_complete_workflow`. -/
structure WorkflowResults where
  analysis : Option AnalysisResults
  publishing : Option PublishingResults
  archiving : ArchiveResults
  overall_success : Bool
  summary : List String

/-- `WorkflowOrchestrator.run_complete_workflow`
(src/modules/workflow_orchestrator.py:218-304): analysis runs only when an
analyzer is configured, publishing only when a publisher is configured,
archiving always; `overall_success` is the conjunction of the analysis
success (or `True` when skipped), the publishing success (or `True` when
skipped), and the archiving success (or `False` when absent — archiving is
always present).  The phase outcomes are inputs, as each phase talks to
external services. -/
def run_complete_workflow (hasGemini hasPublisher : Bool)
    (analysisR : AnalysisResults) (publishingR : PublishingResults)
    (archivingR : ArchiveResults) : WorkflowResults :=
  let analysis := if hasGemini then some analysisR else none
  let sum1 :=
    if hasGemini then
      if analysisR.success then
        ["✅ Analyzed " ++ toString analysisR.posts_analyzed ++ " posts, found " ++
         toString analysisR.projects_found ++ " projects"]
      else ["❌ Analysis failed: " ++ toString analysisR.errors]
    else ["⏭️  AI analysis skipped (not configured)"]
  let publishing := if hasPublisher then some publishingR else none
  let sum2 :=
    if hasPublisher then
      if publishingR.success then
        ["✅ Published successfully: " ++
         (publishingR.url.getD (publishingR.post_id.getD ""))]
      else ["❌ Publishing failed: " ++ toString publishingR.errors]
    else ["⏭️  Publishing skipped (not configured)"]
  let sum3 :=
    if archivingR.success then
      ["✅ Archived " ++ toString archivingR.posts_archived ++ " posts"]
    else ["❌ Archiving failed: " ++ toString archivingR.errors]
  let overall :=
    (match analysis with | some a => a.success | none => true) &&
    (match publishing with | some p => p.success | none => true) &&
    archivingR.success
  { analysis := analysis, publishing := publishing, archiving := archivingR,
    overall_success := overall, summary := sum1 ++ sum2 ++ sum3 }

/-! ## Scheduler pipeline (src/modules/scheduler.py, class
`ScheduledTaskRunner`) -/

/-- The result dictionary of `SequentialProcessor.process_csv_to_sheets`. -/
structure UploadResults where
  success : Bool
  uploaded : Nat
  duplicates : Nat
  errors : List String
deriving DecidableEq

/-- The result dictionary of `ScheduledTaskRunner.run_complete_pipeline`. -/
structure PipelineResults where
  csv_file : Option String
  sheets_upload : Option UploadResults
  ai_analysis : Option AnalysisResults
  publishing : Option PublishingResults
  archive : Option ArchiveResults
  overall_success : Bool
  summary : List String

/-- `ScheduledTaskRunner.run_complete_pipeline`
(src/modules/scheduler.py:653-794).  `csvFile` is the outcome of the
Discord-collection phase (`None` when it produced no posts); the later
phase outcomes are inputs, as they involve external services.  When no CSV
was produced every later phase is skipped and `overall_success` is `True`;
otherwise `overall_success` is the conjunction of the sheets-upload, the
(possibly rate-limit-forgiven) AI-analysis, and the archive successes —
the publishing success is not part of the conjunction (lines 764-768). -/
def run_complete_pipeline (csvFile : Option String) (skipAiOnRateLimit : Bool)
    (sheetsR : UploadResults) (aiR : AnalysisResults)
    (pubR : PublishingResults) (archiveR : ArchiveResults) : PipelineResults :=
  match csvFile with
  | none =>
    { csv_file := none, sheets_upload := none, ai_analysis := none,
      publishing := none, archive := none, overall_success := true,
      summary := ["ℹ️  No Discord data to process"] }
  | some f =>
    let aiAdj :=
      if ¬ aiR.success ∧ skipAiOnRateLimit ∧
          aiR.errors.any (fun e =>
            strContains (strLower e) "rate" || strContains (strLower e) "quota") then
        { aiR with success := true }
      else aiR
    { csv_file := some f, sheets_upload := some sheetsR,
      ai_analysis := some aiAdj, publishing := some pubR,
      archive := some archiveR,
      overall_success := sheetsR.success && aiAdj.success && archiveR.success,
      summary := ["✅ Discord data collected to: " ++ f] }

/-! ## Sheet-bound publisher -/

/-- `PublishResult` dataclass (src/modules/x_publisher.py:19-25). -/
structure PublishResult where
  success : Bool
  url : Option String
  post_id : Option String
  error_msg : Option String
deriving DecidableEq

/-- The draft column located by the sheet-bound publisher: the
`Daily Post Draft` column, or the legacy `AI Draft` column. -/
def sheetDraftCol (sheet : Sheet) : Option Nat :=
  let headers := match sheet with | [] => [] | r :: _ => r
  match headers.findIdx? (fun h => h = "Daily Post Draft") with
  | some i => some i
  | none => headers.findIdx? (fun h => h = "AI Draft")

/-- The `Publication receipt` column of the working sheet, appended on
demand: its index together with the (possibly extended) header row. -/
def sheetReceiptCol (headers : List String) : Nat × List String :=
  match headers.findIdx? (fun h => h = "Publication receipt") with
  | some i => (i, headers)
  | none => (headers.length, headers ++ ["Publication receipt"])

/-- The receipt value recorded for a successful publish: the published URL
if present, else the post/draft id. -/
def receiptValue (r : PublishResult) : String :=
  match r.url with
  | some u => u
  | none => r.post_id.getD ""

/-- Modelled from the spec: the class `SheetPublisher` is imported from
`modules.x_publisher` by the workflow orchestrator
(src/modules/workflow_orchestrator.py:17) and the scheduler
(src/modules/scheduler.py:21) and exercised by
src/tests/test_sheet_publishing.py, but its definition is absent from the
source tree.  Per spec §4.7, `publish_from_sheet(row_index)` reads the
working sheet, locates the `Daily Post Draft` (or legacy `AI Draft`)
column, takes that row's content as the publish payload, calls the wrapped
backend's `publish`, on success writes a `Publication receipt` value (the
published URL if present, else the post/draft id) back into the same row,
and returns the backend's `PublishResult` unchanged.  `publishFn` is the
wrapped backend's `publish`; `row_index` is 1-based as at the call sites. -/
def publish_from_sheet (publishFn : String → PublishResult) (sheet : Sheet)
    (row_index : Nat) : PublishResult × Sheet :=
  match sheetDraftCol sheet with
  | none => (⟨false, none, none, some "Daily Post Draft column not found"⟩, sheet)
  | some dc =>
    let row := sheet.getD (row_index - 1) []
    let payload := row.getD dc ""
    let res := publishFn payload
    if res.success then
      let headers := match sheet with | [] => [] | r :: _ => r
      let rc := sheetReceiptCol headers
      let newRow := (padRowTo row (rc.1 + 1)).set rc.1 (receiptValue res)
      let sheet2 :=
        match sheet with
        | [] => [rc.2]
        | _ :: rest => rc.2 :: rest
      (res, sheet2.set (row_index - 1) newRow)
    else (res, sheet)

/-- At least one of the four enrichment columns (`AI Summary`, `AI
Keywords`, `AI processed`, `Daily Post Draft`) is missing from a header row
(case-insensitive match, as scanned by `ensure_columns_exist`). -/
def missingEnrichment (headers : List String) : Prop :=
  lastIdxOfLower headers "ai summary" = -1 ∨
  lastIdxOfLower headers "ai keywords" = -1 ∨
  lastIdxOfLower headers "ai processed" = -1 ∨
  lastIdxOfLower headers "daily post draft" = -1

/-- The configuration module produced by an empty environment (all defaults
of src/config.py). -/
def defaultConfigModule : ConfigModule where
  DISCORD_TOKEN := none
  DISCORD_CHANNEL_ID := none
  GOOGLE_SHEETS_ID := none
  GOOGLE_SERVICE_ACCOUNT_FILE := "credentials.json"
  GOOGLE_SHEET_NAME := "Sheet1"
  SHEETS_BATCH_SIZE := 100
  SCHEDULE_TIME := "20:00"
  SCHEDULE_TIMEZONE := none
  DISCORD_COLLECTION_MODE := "daily"
  DISCORD_LOOKBACK_HOURS := 24
  DISCORD_LOOKBACK_DAYS := 1
  DISCORD_FETCH_LIMIT := 200
  DISCORD_SKIP_DUPLICATES := "true"
  LOG_LEVEL := "INFO"
  LOG_DIR := "logs"
  APP_NAME := "Discord to Google Sheets Bot"
  VERSION := "2.0.1"
  TWITTER_LINK_PATTERNS := ["twitter", "x"]
  SHEET_NAME := "Sheet1"
  SHEET_HEADERS := ["Date", "Time", "Content", "Post Link", "Author", "Author Link"]
  MAX_RETRIES := 3
  RETRY_DELAY := 5
  BATCH_SIZE := 100
  GEMINI_API_KEY := none
  GEMINI_MODEL := "gemini-1.5-flash"
  GEMINI_DAILY_LIMIT := 1400
  X_API_KEY := none
  X_API_SECRET := none
  X_ACCESS_TOKEN := none
  X_ACCESS_TOKEN_SECRET := none
  PUBLISHER_TYPE := "twitter"
  TYPEFULLY_API_KEY := none
  TYPEFULLY_SCHEDULE := "next-free-slot"
  TYPEFULLY_HOURS_DELAY := 0
  ARCHIVE_SHEET_NAME := "Archive"
  ARCHIVE_BATCH_SIZE := 50

/-! ## General helper lemmas -/

theorem padRowTo_length (row : List String) (n : Nat) :
    (padRowTo row n).length = max row.length n := by
  simp [padRowTo]
  omega

theorem list_getD_set {α : Type} (l : List α) (n : Nat) (a d : α)
    (h : n < l.length) : (l.set n a).getD n d = a := by
  induction l generalizing n with
  | nil => simp at h
  | cons x xs ih =>
    cases n with
    | zero => simp
    | succ k =>
      simp only [List.set_cons_succ, List.getD_cons_succ]
      exact ih k (by simpa using h)

/-! ## Claim C6: rate-limit manager -/

/-- Claim C6, corrected: `can_make_request` resets the daily counter when the
wall-clock date has advanced, resets the minute counter when the
`timedelta.seconds` component of the elapsed time since the minute window
started — the elapsed time modulo one day — is at least 60, and returns
true exactly when both post-reset counters are under their ceilings
(daily limit, resp. 14). -/
theorem C6_can_make_request_semantics (m : RateLimitManager) (now : Nat) :
    (m.can_make_request now).1.daily_requests = dailyAfterReset m now ∧
    (m.can_make_request now).1.minute_requests = minuteAfterReset m now ∧
    ((m.can_make_request now).2 = true ↔
      dailyAfterReset m now < m.daily_limit ∧ minuteAfterReset m now < 14) := by
  simp only [RateLimitManager.can_make_request, dailyAfterReset, minuteAfterReset]
  split_ifs <;> simp_all <;> omega

/-- Claim C6 as stated is false on the code: in the state below, 86430
seconds (one day plus 30 seconds) have elapsed since the minute window
started and the calendar date has advanced, so the claimed behaviour resets
both counters and answers true, but the code's `timedelta.seconds` test
sees only 30 seconds, keeps `minute_requests = 14`, and answers false. -/
theorem C6_counterexample :
    ((RateLimitManager.mk 1400 5 14 86340 86340).can_make_request 172770).2 = false ∧
    (claimC6_can_make_request (RateLimitManager.mk 1400 5 14 86340 86340) 172770).2 = true := by
  decide

/-! ## Claim C4: collection time window -/

/-- Claim C4, corrected: in `since_last` mode the collector always uses the
1-day fallback `now - 86400` — the spreadsheet's last recorded entry date
is never consulted — and any unrecognized mode yields no lower bound. -/
theorem C4_time_window_semantics (cfg : CollectorConfig) (now : Int) :
    (cfg.collection_mode = "since_last" →
      get_time_window cfg now = some (now - 86400)) ∧
    (cfg.collection_mode ≠ "daily" → cfg.collection_mode ≠ "hours" →
      cfg.collection_mode ≠ "since_last" → get_time_window cfg now = none) := by
  unfold get_time_window
  constructor
  · intro h
    simp [h]
  · intro h1 h2 h3
    simp [h1, h2, h3]

theorem C4_time_window_semantics_witness :
    get_time_window ⟨"since_last", 1, 24⟩ 864000 = some (864000 - 86400) ∧
    get_time_window ⟨"weekly", 1, 24⟩ 864000 = none := by
  refine ⟨(C4_time_window_semantics ⟨"since_last", 1, 24⟩ 864000).1 rfl, ?_⟩
  exact (C4_time_window_semantics ⟨"weekly", 1, 24⟩ 864000).2
    (by decide) (by decide) (by decide)

/-- Claim C4 as stated is false on the code: with mode `since_last`, a sheet
whose last recorded entry date is timestamp 0, and `now` ten days later,
the claimed window starts at the last entry date (0) while the code's
window starts at `now` minus one day. -/
theorem C4_counterexample :
    get_time_window ⟨"since_last", 1, 24⟩ 864000 ≠
      claimC4_time_window ⟨"since_last", 1, 24⟩ 864000 (some 0) := by
  decide

/-! ## Claim C5: archive tab name -/

/-- Helper: the `ARCHIVE_SHEET_NAME` field produced by `loadConfig`. -/
theorem loadConfig_archive_name (env : Env) (m : ConfigModule)
    (h : loadConfig env = .ok m) :
    m.ARCHIVE_SHEET_NAME = (env "ARCHIVE_SHEET_NAME").getD "Archive" := by
  simp only [loadConfig, bind, Except.bind] at h
  repeat' split at h
  all_goals try (exact Except.noConfusion h)
  injection h with h2
  subst h2
  rfl

/-- Claim C5, corrected: with the archive-tab-name variable unset the loaded
setting is the literal `Archive` (not `Archives`), and the archive manager
writes archived rows to the hardcoded tab `Archives` regardless of that
setting (it modifies no other tab). -/
theorem C5_archive_name_semantics (env : Env) (m : ConfigModule)
    (h1 : loadConfig env = .ok m)
    (h2 : env "ARCHIVE_SHEET_NAME" = none) :
    m.ARCHIVE_SHEET_NAME = "Archive" ∧
    ArchiveHandler.init.archive_sheet_name = "Archives" ∧
    (∀ tabs posts nowIso t, t ≠ "Archives" →
      (ArchiveHandler.init.archive_posts tabs posts nowIso).2 t = tabs t) := by
  refine ⟨?_, rfl, ?_⟩
  · rw [loadConfig_archive_name env m h1, h2]
    rfl
  · intro tabs posts nowIso t ht
    simp only [ArchiveHandler.archive_posts, ArchiveHandler.init]
    split
    · rfl
    · simp [ht]

theorem C5_archive_name_semantics_witness :
    defaultConfigModule.ARCHIVE_SHEET_NAME = "Archive" ∧
    ArchiveHandler.init.archive_sheet_name = "Archives" ∧
    (ArchiveHandler.init.archive_posts (fun _ => [])
      [⟨2, ["2024-01-01"], ["Date"]⟩] "2024-01-02T00:00:00").2 "Sheet1" = [] := by
  have h := C5_archive_name_semantics (fun _ => none) defaultConfigModule (by rfl) rfl
  exact ⟨h.1, h.2.1, h.2.2 _ _ _ "Sheet1" (by decide)⟩

/-- Claim C5 as stated is false on the code: under the empty environment the
loaded archive tab name is `Archive`, not `Archives`
(src/config.py:151 defaults to `'Archive'`). -/
theorem C5_counterexample :
    (loadConfig (fun _ => none)).toOption.map ConfigModule.ARCHIVE_SHEET_NAME =
      some "Archive" ∧ ("Archive" : String) ≠ "Archives" := by
  exact ⟨by rfl, by decide⟩

/-! ## Claim C7: GEMINI_GENERATION_MODE gap -/

/-- Claim C7, confirmed: for every loaded configuration module — hence for
every environment — `build_config_dict` fails with the `AttributeError`
for `GEMINI_GENERATION_MODE`, which src/config.py never defines. -/
theorem C7_build_config_dict_fails (m : ConfigModule) :
    build_config_dict m =
      .error "module 'config' has no attribute 'GEMINI_GENERATION_MODE'" := by
  rfl

/-! ## Claim C8: fetch retry -/

theorem fetchRetryGo_ok {fetch : Nat → FetchOutcome} {attempt : Nat}
    {posts : List TwitterPost} (h : fetch attempt = .ok posts)
    (remaining backoff : Nat) (sleeps : List Nat) :
    fetchRetryGo fetch remaining attempt backoff sleeps =
      ⟨attempt + 1, sleeps.reverse, .ok posts⟩ := by
  unfold fetchRetryGo
  rw [h]

theorem fetchRetryGo_otherErr {fetch : Nat → FetchOutcome} {attempt : Nat}
    {m : String} (h : fetch attempt = .otherError m)
    (remaining backoff : Nat) (sleeps : List Nat) :
    fetchRetryGo fetch remaining attempt backoff sleeps =
      ⟨attempt + 1, sleeps.reverse, .error m⟩ := by
  unfold fetchRetryGo
  rw [h]

theorem fetchRetryGo_http_zero {fetch : Nat → FetchOutcome} {attempt : Nat}
    {m : String} (h : fetch attempt = .httpError m) (backoff : Nat)
    (sleeps : List Nat) :
    fetchRetryGo fetch 0 attempt backoff sleeps =
      ⟨attempt + 1, sleeps.reverse, .error m⟩ := by
  unfold fetchRetryGo
  rw [h]

theorem fetchRetryGo_http_succ {fetch : Nat → FetchOutcome} {attempt : Nat}
    {m : String} (h : fetch attempt = .httpError m) (r backoff : Nat)
    (sleeps : List Nat) :
    fetchRetryGo fetch (r + 1) attempt backoff sleeps =
      fetchRetryGo fetch r (attempt + 1) (backoff * 2) (backoff :: sleeps) := by
  conv_lhs => unfold fetchRetryGo
  rw [h]

theorem fetchRetryGo_allHttp (fetch : Nat → FetchOutcome) (msgs : Nat → String)
    (hf : ∀ i, fetch i = .httpError (msgs i)) (r : Nat) :
    ∀ a b s, (fetchRetryGo fetch r a b s).attempts = a + r + 1 ∧
      (fetchRetryGo fetch r a b s).outcome = .error (msgs (a + r)) := by
  induction r with
  | zero =>
    intro a b s
    rw [fetchRetryGo_http_zero (hf a)]
    exact ⟨rfl, rfl⟩
  | succ k ih =>
    intro a b s
    rw [fetchRetryGo_http_succ (hf a)]
    have h := ih (a + 1) (b * 2) (b :: s)
    refine ⟨?_, ?_⟩
    · rw [h.1]; omega
    · rw [h.2]; congr 2; omega

/-- Claim C8, confirmed: with `max_retries = 3`, a fetch that raises a
platform HTTP error on its first two attempts and succeeds on the third
makes exactly 3 attempts, sleeps 1 second then 2 seconds, and returns the
successful result; a fetch that always raises a platform error makes
exactly `max_retries + 1` attempts and re-raises the final error; a fetch
raising a non-platform error is re-raised immediately after one attempt
with no sleep. -/
theorem C8_retry_semantics (fetch2 fetchFail fetchOther : Nat → FetchOutcome)
    (posts : List TwitterPost) (msgs : Nat → String) (m0 : String)
    (h2a : fetch2 0 = .httpError (msgs 0)) (h2b : fetch2 1 = .httpError (msgs 1))
    (h2c : fetch2 2 = .ok posts)
    (hf : ∀ i, fetchFail i = .httpError (msgs i))
    (ho : fetchOther 0 = .otherError m0) :
    fetch_twitter_posts_with_retry fetch2 3 = ⟨3, [1, 2], .ok posts⟩ ∧
    (∀ max_retries,
      (fetch_twitter_posts_with_retry fetchFail max_retries).attempts =
        max_retries + 1 ∧
      (fetch_twitter_posts_with_retry fetchFail max_retries).outcome =
        .error (msgs max_retries)) ∧
    fetch_twitter_posts_with_retry fetchOther 3 = ⟨1, [], .error m0⟩ := by
  refine ⟨?_, ?_, ?_⟩
  · unfold fetch_twitter_posts_with_retry
    rw [fetchRetryGo_http_succ h2a, fetchRetryGo_http_succ h2b, fetchRetryGo_ok h2c]
    rfl
  · intro mr
    have h := fetchRetryGo_allHttp fetchFail msgs hf mr 0 1 []
    unfold fetch_twitter_posts_with_retry
    refine ⟨by rw [h.1]; omega, by rw [h.2]; congr 2; omega⟩
  · unfold fetch_twitter_posts_with_retry
    rw [fetchRetryGo_otherErr ho]
    rfl

theorem C8_retry_semantics_witness :
    fetch_twitter_posts_with_retry
        (fun i => if i < 2 then .httpError "429" else .ok []) 3 =
      ⟨3, [1, 2], .ok []⟩ ∧
    (fetch_twitter_posts_with_retry (fun _ => .httpError "429") 3).attempts = 4 ∧
    (fetch_twitter_posts_with_retry (fun _ => .httpError "429") 3).outcome =
      .error "429" ∧
    fetch_twitter_posts_with_retry (fun _ => .otherError "boom") 3 =
      ⟨1, [], .error "boom"⟩ := by
  have h := C8_retry_semantics
    (fun i => if i < 2 then .httpError "429" else .ok [])
    (fun _ => .httpError "429") (fun _ => .otherError "boom")
    [] (fun _ => "429") "boom" rfl rfl rfl (fun _ => rfl) rfl
  exact ⟨h.1, (h.2.1 3).1, (h.2.1 3).2, h.2.2⟩

/-! ## Claim C2: run_analysis unpack failure -/

/-- Claim C2 is refuted by the code: whenever an analyzer is configured,
`WorkflowOrchestrator.run_analysis` unpacks the 4-tuple returned by
`ensure_columns_exist` into three targets (line 110), so every call raises
`ValueError` inside the `try` block and returns a failure result with zero
counts — the analysis, write and draft steps never run.  (The analyzer's
own `run_daily_analysis`, src/modules/gemini_analyzer.py:777, documents and
unpacks the 4-value return; the orchestrator was not updated.) -/
theorem C2_run_analysis_always_fails (generation_mode : String)
    (analyzeAll : Sheet → (List ProjectSummary × List (Int × String)) × Sheet)
    (sheet : Sheet) :
    (run_analysis true generation_mode analyzeAll sheet).1 =
      ⟨false, 0, 0, ["too many values to unpack (expected 3)"]⟩ := by
  rfl

/-! ## Claim C3: overall pipeline success composition -/

/-- Claim C3, confirmed, on both pipeline compositions present in the
source: (a) the workflow orchestrator with no analyzer and no publisher
reports overall success exactly when archiving succeeds, and an archiving
failure forces overall failure regardless of the other phases; (b) the
scheduler's complete pipeline reports overall success when collection
succeeds with nothing to process (all later phases skipped), and an
archiving failure in a processing run forces overall failure regardless of
the other phases. -/
theorem C3_overall_success_composition :
    (∀ aR pR arR, arR.success = true →
      (run_complete_workflow false false aR pR arR).overall_success = true) ∧
    (∀ g p aR pR arR, arR.success = false →
      (run_complete_workflow g p aR pR arR).overall_success = false) ∧
    (∀ skip sR aR pR arR,
      (run_complete_pipeline none skip sR aR pR arR).overall_success = true) ∧
    (∀ f skip sR aR pR arR, arR.success = false →
      (run_complete_pipeline (some f) skip sR aR pR arR).overall_success = false) := by
  refine ⟨?_, ?_, ?_, ?_⟩
  · intro aR pR arR h
    simp [run_complete_workflow, h]
  · intro g p aR pR arR h
    simp [run_complete_workflow, h]
  · intro skip sR aR pR arR
    rfl
  · intro f skip sR aR pR arR h
    simp [run_complete_pipeline, h]

theorem C3_overall_success_composition_witness :
    (run_complete_workflow false false ⟨false, 0, 0, ["e"]⟩
      ⟨false, false, none, none, ["e"]⟩ ⟨true, 2, []⟩).overall_success = true ∧
    (run_complete_workflow true true ⟨true, 1, 1, []⟩
      ⟨true, true, some "u", some "1", []⟩ ⟨false, 0, ["fail"]⟩).overall_success = false ∧
    (run_complete_pipeline none true ⟨true, 0, 0, []⟩ ⟨true, 0, 0, []⟩
      ⟨true, false, none, none, []⟩ ⟨false, 0, ["fail"]⟩).overall_success = true ∧
    (run_complete_pipeline (some "data/x.csv") true ⟨true, 3, 1, []⟩
      ⟨true, 2, 3, []⟩ ⟨true, true, some "u", some "1", []⟩
      ⟨false, 0, ["fail"]⟩).overall_success = false := by
  refine ⟨C3_overall_success_composition.1 _ _ _ rfl,
          C3_overall_success_composition.2.1 _ _ _ _ _ rfl,
          C3_overall_success_composition.2.2.1 _ _ _ _ _,
          C3_overall_success_composition.2.2.2 _ _ _ _ _ _ rfl⟩

/-! ## Claim C10: ensure_columns_exist frame property -/

theorem ecAddSummary_present (headers : List String) (c : Int) (h : ¬ c = -1) :
    ecAddSummary headers c = (headers, c, false) := by
  unfold ecAddSummary
  rw [if_neg h]

theorem ecAddKeywords_present (mode : String) (headers : List String)
    (s k p d : Int) (needs : Bool) (h : ¬ k = -1) :
    ecAddKeywords mode headers s k p d needs = (headers, k, p, d, needs) := by
  unfold ecAddKeywords
  rw [if_neg (fun hc => h hc.2)]

theorem ecAddProcessed_present (headers : List String) (s k p d : Int)
    (needs : Bool) (h : ¬ p = -1) :
    ecAddProcessed headers s k p d needs = (headers, p, d, needs) := by
  unfold ecAddProcessed
  rw [if_neg h]

theorem ecAddDraft_present (headers : List String) (d : Int) (needs : Bool)
    (h : ¬ d = -1) : ecAddDraft headers d needs = (headers, d, needs) := by
  unfold ecAddDraft
  rw [if_neg h]

/-- Claim C10, confirmed: `ensure_columns_exist` never touches the data rows
below the header — the resulting sheet's tail equals the original tail, in
the original order, even when a column title is inserted mid-header — and
the clear-and-rewrite is performed only when at least one of the four
enrichment columns was missing from the original header. -/
theorem C10_ensure_columns_frame (generation_mode : String) (sheet : Sheet) :
    ((ensure_columns_exist generation_mode sheet).2.1).drop 1 = sheet.drop 1 ∧
    ((ensure_columns_exist generation_mode sheet).2.2 = true →
      missingEnrichment (sheet.headD [])) := by
  cases sheet with
  | nil =>
    refine ⟨?_, ?_⟩
    · unfold ensure_columns_exist
      dsimp only
      split <;> rfl
    · intro _
      exact Or.inl rfl
  | cons r rest =>
    refine ⟨?_, ?_⟩
    · unfold ensure_columns_exist
      dsimp only
      split <;> rfl
    · intro hwrote
      unfold missingEnrichment
      simp only [List.headD]
      by_cases h1 : lastIdxOfLower r "ai summary" = -1
      · exact Or.inl h1
      by_cases h2 : lastIdxOfLower r "ai keywords" = -1
      · exact Or.inr (Or.inl h2)
      by_cases h3 : lastIdxOfLower r "ai processed" = -1
      · exact Or.inr (Or.inr (Or.inl h3))
      by_cases h4 : lastIdxOfLower r "daily post draft" = -1
      · exact Or.inr (Or.inr (Or.inr h4))
      exfalso
      unfold ensure_columns_exist at hwrote
      dsimp only at hwrote
      rw [ecAddSummary_present _ _ h1] at hwrote
      dsimp only at hwrote
      rw [ecAddKeywords_present _ _ _ _ _ _ _ h2] at hwrote
      dsimp only at hwrote
      rw [ecAddProcessed_present _ _ _ _ _ _ h3] at hwrote
      dsimp only at hwrote
      rw [ecAddDraft_present _ _ _ h4] at hwrote
      exact Bool.noConfusion hwrote

theorem C10_ensure_columns_frame_witness :
    ((ensure_columns_exist "summary" [["Date"], ["2024-01-01"]]).2.1).drop 1 =
      [["2024-01-01"]] ∧ missingEnrichment ["Date"] := by
  have h := C10_ensure_columns_frame "summary" [["Date"], ["2024-01-01"]]
  exact ⟨h.1, h.2 (by decide)⟩

/-! ## Claim C1: sheet-bound publisher -/

/-- Claim C1, confirmed against the spec-modelled `SheetPublisher` (the
class is absent from the source tree): for every backend publish function
and sheet with a draft column, `publish_from_sheet(row_index)` passes that
row's draft-column content as the payload, returns the backend's
`PublishResult` unchanged, and on success records the receipt (URL if
present, else post/draft id) in the `Publication receipt` column of the
same row. -/
theorem C1_publish_from_sheet_spec (publishFn : String → PublishResult)
    (sheet : Sheet) (row_index dc : Nat)
    (hdc : sheetDraftCol sheet = some dc)
    (h1 : 2 ≤ row_index) (h2 : row_index ≤ sheet.length) :
    (publish_from_sheet publishFn sheet row_index).1 =
      publishFn ((sheet.getD (row_index - 1) []).getD dc "") ∧
    ((publishFn ((sheet.getD (row_index - 1) []).getD dc "")).success = true →
      ((publish_from_sheet publishFn sheet row_index).2.getD (row_index - 1) []).getD
          (sheetReceiptCol (match sheet with | [] => [] | r :: _ => r)).1 "" =
        receiptValue (publishFn ((sheet.getD (row_index - 1) []).getD dc ""))) := by
  obtain ⟨r0, rest, rfl⟩ : ∃ r0 rest, sheet = r0 :: rest := by
    cases sheet with
    | nil => exact absurd h2 (by simp; omega)
    | cons a l => exact ⟨a, l, rfl⟩
  have hlen : row_index - 1 < (r0 :: rest).length := by
    simp at h2 ⊢
    omega
  simp only [publish_from_sheet, hdc]
  constructor
  · split <;> rfl
  · intro hs
    rw [if_pos hs]
    dsimp only
    rw [list_getD_set _ _ _ _ (by simpa using hlen)]
    apply list_getD_set
    rw [padRowTo_length]
    omega

theorem C1_publish_from_sheet_spec_witness :
    sheetDraftCol [["Daily Post Draft"], ["hello world"]] = some 0 ∧
    (publish_from_sheet (fun c => ⟨true, some ("https://x.example/" ++ c), some "42", none⟩)
        [["Daily Post Draft"], ["hello world"]] 2).1 =
      ⟨true, some "https://x.example/hello world", some "42", none⟩ ∧
    ((publish_from_sheet (fun c => ⟨true, some ("https://x.example/" ++ c), some "42", none⟩)
        [["Daily Post Draft"], ["hello world"]] 2).2.getD 1 []).getD 1 "" =
      "https://x.example/hello world" := by
  have h := C1_publish_from_sheet_spec
    (fun c => ⟨true, some ("https://x.example/" ++ c), some "42", none⟩)
    [["Daily Post Draft"], ["hello world"]] 2 0 rfl (by decide) (by decide)
  exact ⟨rfl, h.1, h.2 rfl⟩

/-! ## Claim C9 development, part 1: `dropWhile` / `dropTrailWhile` algebra -/

theorem dropWhile_mem {α : Type} {p : α → Bool} {l : List α} {x : α}
    (h : x ∈ l.dropWhile p) : x ∈ l := by
  induction l with
  | nil => simp at h
  | cons a t ih =>
    by_cases hp : p a = true
    · rw [List.dropWhile_cons_of_pos hp] at h
      exact List.mem_cons_of_mem a (ih h)
    · rw [List.dropWhile_cons_of_neg hp] at h
      exact h

theorem takeWhile_mem_p {α : Type} {p : α → Bool} {l : List α} {x : α}
    (h : x ∈ l.takeWhile p) : p x = true := by
  induction l with
  | nil => simp [List.takeWhile] at h
  | cons a t ih =>
    by_cases hp : p a = true
    · rw [List.takeWhile_cons_of_pos hp] at h
      rcases List.mem_cons.mp h with h1 | h2
      · exact h1 ▸ hp
      · exact ih h2
    · rw [List.takeWhile_cons_of_neg hp] at h
      simp at h

theorem dropWhile_allp {α : Type} {p : α → Bool} {l : List α}
    (h : ∀ x ∈ l, p x = true) : l.dropWhile p = [] := by
  induction l with
  | nil => rfl
  | cons a t ih =>
    rw [List.dropWhile_cons_of_pos (h a (List.mem_cons_self a t))]
    exact ih (fun x hx => h x (List.mem_cons_of_mem a hx))

theorem dropWhile_append_allp {α : Type} {p : α → Bool} {a b : List α}
    (h : ∀ x ∈ a, p x = true) : (a ++ b).dropWhile p = b.dropWhile p := by
  induction a with
  | nil => rfl
  | cons c t ih =>
    rw [List.cons_append,
      List.dropWhile_cons_of_pos (h c (List.mem_cons_self c t))]
    exact ih (fun x hx => h x (List.mem_cons_of_mem c hx))

theorem dropWhile_append_stop {α : Type} {p : α → Bool} {c : α}
    (hc : p c = false) (a z : List α) :
    (a ++ c :: z).dropWhile p = a.dropWhile p ++ c :: z := by
  induction a with
  | nil =>
    simp only [List.nil_append, List.dropWhile_nil]
    rw [List.dropWhile_cons_of_neg (by simp [hc])]
  | cons x t ih =>
    by_cases hp : p x = true
    · rw [List.cons_append, List.dropWhile_cons_of_pos hp,
        List.dropWhile_cons_of_pos hp, ih]
    · rw [List.cons_append, List.dropWhile_cons_of_neg hp,
        List.dropWhile_cons_of_neg hp, List.cons_append]

theorem dropWhile_append_of_ne_nil {α : Type} {p : α → Bool} {a : List α}
    (h : a.dropWhile p ≠ []) (b : List α) :
    (a ++ b).dropWhile p = a.dropWhile p ++ b := by
  induction a with
  | nil => exact absurd rfl h
  | cons x t ih =>
    by_cases hp : p x = true
    · rw [List.dropWhile_cons_of_pos hp] at h
      rw [List.cons_append, List.dropWhile_cons_of_pos hp,
        List.dropWhile_cons_of_pos hp, ih h]
    · rw [List.cons_append, List.dropWhile_cons_of_neg hp,
        List.dropWhile_cons_of_neg hp, List.cons_append]

theorem dropWhile_head_false {α : Type} {p : α → Bool} {l : List α} {c : α}
    {t : List α} (h : l.dropWhile p = c :: t) : p c = false := by
  induction l with
  | nil => simp at h
  | cons a s ih =>
    by_cases hp : p a = true
    · rw [List.dropWhile_cons_of_pos hp] at h
      exact ih h
    · rw [List.dropWhile_cons_of_neg hp] at h
      cases h
      exact Bool.eq_false_iff.mpr hp

theorem dropWhile_idem {α : Type} (p : α → Bool) (l : List α) :
    (l.dropWhile p).dropWhile p = l.dropWhile p := by
  rcases hd : l.dropWhile p with _ | ⟨c, t⟩
  · rfl
  · exact List.dropWhile_cons_of_neg (by simp [dropWhile_head_false hd])

theorem dropWhile_length_le {α : Type} (p : α → Bool) (l : List α) :
    (l.dropWhile p).length ≤ l.length := by
  induction l with
  | nil => exact Nat.le_refl 0
  | cons a t ih =>
    by_cases hp : p a = true
    · rw [List.dropWhile_cons_of_pos hp]
      exact Nat.le_succ_of_le ih
    · rw [List.dropWhile_cons_of_neg hp]

theorem dropWhile_length_eq {α : Type} {p : α → Bool} {l : List α}
    (h : (l.dropWhile p).length = l.length) : l.dropWhile p = l := by
  induction l with
  | nil => rfl
  | cons a t ih =>
    by_cases hp : p a = true
    · rw [List.dropWhile_cons_of_pos hp] at h
      have := dropWhile_length_le p t
      simp at h
      omega
    · exact List.dropWhile_cons_of_neg hp

theorem dropTrail_append_stop {p : Char → Bool} {c : Char}
    (hc : p c = false) (x y : List Char) :
    dropTrailWhile p (x ++ c :: y) = x ++ c :: dropTrailWhile p y := by
  unfold dropTrailWhile
  have h1 : (x ++ c :: y).reverse = y.reverse ++ c :: x.reverse := by simp
  rw [h1, dropWhile_append_stop hc]
  simp

theorem dropTrail_cons_neg {p : Char → Bool} {c : Char}
    (hc : p c = false) (y : List Char) :
    dropTrailWhile p (c :: y) = c :: dropTrailWhile p y := by
  have := dropTrail_append_stop hc [] y
  simpa using this

theorem dropTrail_append_allp {p : Char → Bool} {r : List Char}
    (h : ∀ x ∈ r, p x = true) (x : List Char) :
    dropTrailWhile p (x ++ r) = dropTrailWhile p x := by
  unfold dropTrailWhile
  rw [List.reverse_append, dropWhile_append_allp (by simpa using h)]

theorem dropTrail_snoc_neg {p : Char → Bool} {c : Char}
    (hc : p c = false) (x : List Char) :
    dropTrailWhile p (x ++ [c]) = x ++ [c] := by
  rw [dropTrail_append_stop hc x []]
  rfl

theorem dropTrail_decomp (p : Char → Bool) (l : List Char) :
    ∃ b, l = dropTrailWhile p l ++ b ∧ ∀ c ∈ b, p c = true := by
  refine ⟨(l.reverse.takeWhile p).reverse, ?_, ?_⟩
  · have h : l.reverse.takeWhile p ++ l.reverse.dropWhile p = l.reverse :=
      List.takeWhile_append_dropWhile p l.reverse
    conv_lhs => rw [← l.reverse_reverse, ← h]
    rw [List.reverse_append]
    rfl
  · intro c hc
    exact takeWhile_mem_p (List.mem_reverse.mp hc)

theorem dropTrail_mem {p : Char → Bool} {l : List Char} {x : Char}
    (h : x ∈ dropTrailWhile p l) : x ∈ l := by
  unfold dropTrailWhile at h
  exact List.mem_reverse.mp (dropWhile_mem (List.mem_reverse.mp h))

theorem dropTrail_fix_snoc {p : Char → Bool} {m : List Char}
    (hfix : dropTrailWhile p m = m) (hne : m ≠ []) :
    ∃ x c, m = x ++ [c] ∧ p c = false := by
  have hrev : m.reverse.dropWhile p = m.reverse := by
    have : (dropTrailWhile p m).reverse = m.reverse := by rw [hfix]
    rw [dropTrailWhile, List.reverse_reverse] at this
    exact this
  rcases hm : m.reverse with _ | ⟨c, t⟩
  · exact absurd (by simpa using congrArg List.reverse hm) hne
  · refine ⟨t.reverse, c, ?_, ?_⟩
    · have := congrArg List.reverse hm
      simpa using this
    · rw [hm] at hrev
      exact dropWhile_head_false hrev

theorem dropTrail_append_of_ne_nil {p : Char → Bool} {y : List Char}
    (h : dropTrailWhile p y ≠ []) (x : List Char) :
    dropTrailWhile p (x ++ y) = x ++ dropTrailWhile p y := by
  have hrev : y.reverse.dropWhile p ≠ [] := by
    intro hcon
    apply h
    rw [dropTrailWhile, hcon]
    rfl
  unfold dropTrailWhile
  rw [List.reverse_append, dropWhile_append_of_ne_nil hrev]
  rw [List.reverse_append, List.reverse_reverse]

theorem dropTrail_eq_nil_allp {p : Char → Bool} {l : List Char}
    (h : ∀ x ∈ l, p x = true) : dropTrailWhile p l = [] := by
  unfold dropTrailWhile
  rw [dropWhile_allp (by simpa using h)]
  rfl

/-! ## Claim C9 development, part 2: the stage-2 substitution `msub` -/

theorem getLastD_mem {α : Type} : ∀ (l : List α) (d : α), l ≠ [] → l.getLastD d ∈ l
  | [a], _, _ => by simp [List.getLastD]
  | a :: b :: t, d, _ => by
    rw [List.getLastD_cons]
    exact List.mem_cons_of_mem a (getLastD_mem (b :: t) a (by simp))

theorem splitClose_some {l b a : List Char} :
    splitClose l = some (b, a) → l = b ++ ']' :: a ∧ ']' ∉ b := by
  induction l generalizing b a with
  | nil => intro h; simp [splitClose] at h
  | cons c cs ih =>
    intro h
    rw [splitClose] at h
    by_cases hc : c = ']'
    · rw [if_pos hc] at h
      injection h with h1
      injection h1 with h2 h3
      subst h2; subst h3
      exact ⟨by rw [hc]; rfl, by simp⟩
    · rw [if_neg hc] at h
      rcases hsc : splitClose cs with _ | ⟨b2, a2⟩ <;> rw [hsc] at h
      · exact absurd h (by simp)
      · injection h with h1
        injection h1 with h2 h3
        subst h2; subst h3
        obtain ⟨ih1, ih2⟩ := ih hsc
        refine ⟨by rw [List.cons_append, ← ih1], ?_⟩
        intro hmem
        rcases List.mem_cons.mp hmem with h4 | h4
        · exact hc h4.symm
        · exact ih2 h4

theorem splitClose_of_append {b : List Char} (hb : ']' ∉ b) (a : List Char) :
    splitClose (b ++ ']' :: a) = some (b, a) := by
  induction b with
  | nil => rw [List.nil_append, splitClose, if_pos rfl]
  | cons c t ih =>
    have hc : c ≠ ']' := by
      intro hcc
      exact hb (by rw [← hcc]; exact List.mem_cons_self c t)
    rw [List.cons_append, splitClose, if_neg hc,
      ih (fun hm => hb (List.mem_cons_of_mem c hm))]

theorem splitClose_none_of_not_mem {l : List Char} (h : ']' ∉ l) :
    splitClose l = none := by
  induction l with
  | nil => rfl
  | cons c cs ih =>
    have hc : c ≠ ']' := by
      intro hcc
      exact h (by rw [← hcc]; exact List.mem_cons_self c cs)
    rw [splitClose, if_neg hc, ih (fun hm => h (List.mem_cons_of_mem c hm))]

theorem not_mem_of_splitClose_none {l : List Char} :
    splitClose l = none → ']' ∉ l := by
  induction l with
  | nil => intro _ hm; simp at hm
  | cons c cs ih =>
    intro h hm
    rw [splitClose] at h
    by_cases hc : c = ']'
    · rw [if_pos hc] at h
      exact Option.noConfusion h
    · rw [if_neg hc] at h
      rcases List.mem_cons.mp hm with h1 | h1
      · exact hc h1.symm
      · rcases hsc : splitClose cs with _ | ⟨b2, a2⟩
        · exact ih hsc h1
        · rw [hsc] at h
          exact Option.noConfusion h

/-- The fourth equation of `msubF`, with explicit successor fuel. -/
theorem msubF_succ_cons2 (f : Nat) (a b : Char) (rest : List Char) :
    msubF (f + 1) (a :: b :: rest) =
      if a = '[' ∧ b = '@' then
        match splitClose rest with
        | none => '[' :: '@' :: msubF f rest
        | some (before, after) =>
          if before.isEmpty then '[' :: '@' :: msubF f rest
          else '[' :: '@' :: (msubGroup before ++ ']' :: msubF f after)
      else a :: msubF f (b :: rest) := rfl

theorem msubF_fuel : ∀ (k : Nat) (l : List Char) (n m : Nat),
    l.length ≤ k → l.length ≤ n → l.length ≤ m → msubF n l = msubF m l := by
  intro k
  induction k with
  | zero =>
    intro l n m hk _ _
    rw [List.length_eq_zero.mp (Nat.le_zero.mp hk)]
    cases n <;> cases m <;> rfl
  | succ k ih =>
    intro l n m hk hn hm
    cases l with
    | nil => cases n <;> cases m <;> rfl
    | cons a t =>
      cases t with
      | nil =>
        cases n with
        | zero => simp at hn
        | succ n2 =>
          cases m with
          | zero => simp at hm
          | succ m2 => rfl
      | cons b rest =>
        cases n with
        | zero => simp at hn
        | succ n2 =>
          cases m with
          | zero => simp at hm
          | succ m2 =>
            simp only [List.length_cons] at hk hn hm
            rw [msubF_succ_cons2, msubF_succ_cons2]
            by_cases hg : a = '[' ∧ b = '@'
            · rw [if_pos hg, if_pos hg]
              rcases hsc : splitClose rest with _ | ⟨before, after⟩
              · dsimp only
                rw [ih rest n2 m2 (by omega) (by omega) (by omega)]
              · obtain ⟨hrest, _⟩ := splitClose_some hsc
                have hlen : rest.length = before.length + 1 + after.length := by
                  rw [hrest]; simp only [List.length_append, List.length_cons]; omega
                dsimp only
                by_cases hbe : before.isEmpty = true
                · rw [if_pos hbe, if_pos hbe,
                    ih rest n2 m2 (by omega) (by omega) (by omega)]
                · rw [if_neg hbe, if_neg hbe,
                    ih after n2 m2 (by omega) (by omega) (by omega)]
            · rw [if_neg hg, if_neg hg,
                ih (b :: rest) n2 m2 (by simp; omega) (by simp; omega) (by simp; omega)]

theorem msub_cons_cons {a b : Char} (h : ¬(a = '[' ∧ b = '@')) (rest : List Char) :
    msub (a :: b :: rest) = a :: msub (b :: rest) := by
  show msubF (rest.length + 1 + 1) (a :: b :: rest) = _
  rw [msubF_succ_cons2, if_neg h]
  rfl

theorem msub_cons_ne {c : Char} (hc : c ≠ '[') (l : List Char) :
    msub (c :: l) = c :: msub l := by
  cases l with
  | nil => rfl
  | cons b rest => exact msub_cons_cons (fun hg => hc hg.1) rest

theorem msub_guard_none {rest : List Char} (h : splitClose rest = none) :
    msub ('[' :: '@' :: rest) = '[' :: '@' :: msub rest := by
  show msubF (rest.length + 1 + 1) _ = _
  rw [msubF_succ_cons2, if_pos ⟨rfl, rfl⟩, h]
  dsimp only
  rw [msubF_fuel rest.length rest (rest.length + 1) rest.length
    (Nat.le_refl _) (Nat.le_succ _) (Nat.le_refl _)]
  rfl

theorem msub_guard_some_empty {rest after : List Char}
    (h : splitClose rest = some ([], after)) :
    msub ('[' :: '@' :: rest) = '[' :: '@' :: msub rest := by
  show msubF (rest.length + 1 + 1) _ = _
  rw [msubF_succ_cons2, if_pos ⟨rfl, rfl⟩, h]
  dsimp only
  rw [msubF_fuel rest.length rest (rest.length + 1) rest.length
    (Nat.le_refl _) (Nat.le_succ _) (Nat.le_refl _)]
  rfl

theorem msub_guard_some {rest before after : List Char}
    (h : splitClose rest = some (before, after)) (hb : before ≠ []) :
    msub ('[' :: '@' :: rest) =
      '[' :: '@' :: (msubGroup before ++ ']' :: msub after) := by
  obtain ⟨hrest, _⟩ := splitClose_some h
  have hlen : rest.length = before.length + 1 + after.length := by
    rw [hrest]; simp only [List.length_append, List.length_cons]; omega
  have hbe : ¬ before.isEmpty = true := by
    cases before with
    | nil => exact absurd rfl hb
    | cons x s => simp
  show msubF (rest.length + 1 + 1) _ = _
  rw [msubF_succ_cons2, if_pos ⟨rfl, rfl⟩, h]
  dsimp only
  rw [if_neg hbe,
    msubF_fuel after.length after (rest.length + 1) after.length
      (Nat.le_refl _) (by omega) (Nat.le_refl _)]
  rfl

theorem msub_cons_head (c : Char) (t : List Char) :
    ∃ t2, msub (c :: t) = c :: t2 := by
  cases t with
  | nil => exact ⟨[], rfl⟩
  | cons b rest =>
    by_cases hg : c = '[' ∧ b = '@'
    · obtain ⟨rfl, rfl⟩ := hg
      rcases hsc : splitClose rest with _ | ⟨before, after⟩
      · exact ⟨_, msub_guard_none hsc⟩
      · by_cases hbe : before = []
        · subst hbe
          exact ⟨_, msub_guard_some_empty hsc⟩
        · exact ⟨_, msub_guard_some hsc hbe⟩
    · exact ⟨_, msub_cons_cons hg rest⟩

theorem msubGroup_mem {before : List Char} {c : Char}
    (h : c ∈ msubGroup before) : c ∈ before ∨ c = ' ' := by
  unfold msubGroup at h
  by_cases hg : (before.dropWhile isPySpace).isEmpty = true
  · rw [if_pos hg] at h
    rcases List.mem_singleton.mp h with rfl
    rcases before with _ | ⟨x, t⟩
    · exact Or.inr rfl
    · exact Or.inl (getLastD_mem (x :: t) ' ' (by simp))
  · rw [if_neg hg] at h
    exact Or.inl (dropWhile_mem h)

theorem msubF_mem : ∀ (f : Nat) {l : List Char} {c : Char},
    c ∈ msubF f l → c ∈ l ∨ c = ' ' := by
  intro f
  induction f with
  | zero => intro l c h; exact Or.inl h
  | succ f ih =>
    intro l c h
    cases l with
    | nil => exact Or.inl h
    | cons a t =>
      cases t with
      | nil => exact Or.inl h
      | cons b rest =>
        rw [msubF_succ_cons2] at h
        by_cases hg : a = '[' ∧ b = '@'
        · obtain ⟨rfl, rfl⟩ := hg
          rw [if_pos ⟨rfl, rfl⟩] at h
          rcases hsc : splitClose rest with _ | ⟨before, after⟩ <;> rw [hsc] at h
          · dsimp only at h
            rcases List.mem_cons.mp h with rfl | h1
            · exact Or.inl (List.mem_cons_self _ _)
            rcases List.mem_cons.mp h1 with rfl | h2
            · exact Or.inl (List.mem_cons_of_mem _ (List.mem_cons_self _ _))
            rcases ih h2 with h3 | h3
            · exact Or.inl (by simp [h3])
            · exact Or.inr h3
          · obtain ⟨hrest, _⟩ := splitClose_some hsc
            dsimp only at h
            by_cases hbe : before.isEmpty = true
            · rw [if_pos hbe] at h
              rcases List.mem_cons.mp h with rfl | h1
              · exact Or.inl (List.mem_cons_self _ _)
              rcases List.mem_cons.mp h1 with rfl | h2
              · exact Or.inl (List.mem_cons_of_mem _ (List.mem_cons_self _ _))
              rcases ih h2 with h3 | h3
              · exact Or.inl (by simp [h3])
              · exact Or.inr h3
            · rw [if_neg hbe] at h
              rcases List.mem_cons.mp h with rfl | h1
              · exact Or.inl (List.mem_cons_self _ _)
              rcases List.mem_cons.mp h1 with rfl | h2
              · exact Or.inl (List.mem_cons_of_mem _ (List.mem_cons_self _ _))
              rcases List.mem_append.mp h2 with h3 | h3
              · rcases msubGroup_mem h3 with h4 | h4
                · exact Or.inl (by simp [hrest, h4])
                · exact Or.inr h4
              rcases List.mem_cons.mp h3 with rfl | h4
              · exact Or.inl (by simp [hrest])
              rcases ih h4 with h5 | h5
              · exact Or.inl (by simp [hrest, h5])
              · exact Or.inr h5
        · rw [if_neg hg] at h
          rcases List.mem_cons.mp h with rfl | h1
          · exact Or.inl (List.mem_cons_self _ _)
          rcases ih h1 with h2 | h2
          · exact Or.inl (List.mem_cons_of_mem _ h2)
          · exact Or.inr h2

theorem msub_mem {l : List Char} {c : Char} (h : c ∈ msub l) : c ∈ l ∨ c = ' ' :=
  msubF_mem l.length h

theorem msub_no_close_fuel : ∀ (k : Nat) (l : List Char),
    l.length ≤ k → ']' ∉ l → msub l = l := by
  intro k
  induction k with
  | zero =>
    intro l hk _
    rw [List.length_eq_zero.mp (Nat.le_zero.mp hk)]
    rfl
  | succ k ih =>
    intro l hk hnc
    cases l with
    | nil => rfl
    | cons a t =>
      cases t with
      | nil => rfl
      | cons b rest =>
        simp only [List.length_cons] at hk
        have hrest : ']' ∉ rest := fun hm =>
          hnc (List.mem_cons_of_mem a (List.mem_cons_of_mem b hm))
        by_cases hg : a = '[' ∧ b = '@'
        · obtain ⟨rfl, rfl⟩ := hg
          rw [msub_guard_none (splitClose_none_of_not_mem hrest),
            ih rest (by omega) hrest]
        · rw [msub_cons_cons hg, ih (b :: rest) (by simp; omega)
            (fun hm => hnc (List.mem_cons_of_mem a hm))]

theorem msub_no_close {l : List Char} (h : ']' ∉ l) : msub l = l :=
  msub_no_close_fuel l.length l (Nat.le_refl _) h

theorem ws_not_close {r : List Char} (hr : ∀ c ∈ r, isPySpace c = true) :
    ']' ∉ r := by
  intro hm
  exact absurd (hr ']' hm) (by decide)

theorem msub_append_ws_fuel : ∀ (k : Nat) (l r : List Char), l.length ≤ k →
    (∀ c ∈ r, isPySpace c = true) → msub (l ++ r) = msub l ++ r := by
  intro k
  induction k with
  | zero =>
    intro l r hk hr
    rw [List.length_eq_zero.mp (Nat.le_zero.mp hk), List.nil_append]
    exact msub_no_close (ws_not_close hr)
  | succ k ih =>
    intro l r hk hr
    cases l with
    | nil =>
      rw [List.nil_append]
      exact msub_no_close (ws_not_close hr)
    | cons a t =>
      cases t with
      | nil =>
        cases r with
        | nil => rfl
        | cons w r2 =>
          have hw : isPySpace w = true := hr w (List.mem_cons_self w r2)
          have hg : ¬(a = '[' ∧ w = '@') := by
            rintro ⟨rfl, rfl⟩
            exact absurd hw (by decide)
          rw [List.singleton_append, msub_cons_cons hg,
            msub_no_close (ws_not_close hr)]
          rfl
      | cons b rest =>
        simp only [List.length_cons] at hk
        by_cases hg : a = '[' ∧ b = '@'
        · obtain ⟨rfl, rfl⟩ := hg
          rcases hsc : splitClose rest with _ | ⟨before, after⟩
          · have hnc : ']' ∉ rest := not_mem_of_splitClose_none hsc
            have hnc2 : ']' ∉ rest ++ r := by
              intro hm
              rcases List.mem_append.mp hm with h1 | h1
              · exact hnc h1
              · exact ws_not_close hr h1
            rw [List.cons_append, List.cons_append,
              msub_guard_none (splitClose_none_of_not_mem hnc2),
              msub_guard_none hsc, ih rest r (by omega) hr]
            rfl
          · obtain ⟨hrest, hnb⟩ := splitClose_some hsc
            have hlen : rest.length = before.length + 1 + after.length := by
              rw [hrest]; simp only [List.length_append, List.length_cons]; omega
            by_cases hbe : before = []
            · subst hbe
              simp only [List.nil_append] at hrest
              have h2 : splitClose (rest ++ r) = some ([], after ++ r) := by
                rw [hrest, List.cons_append, splitClose, if_pos rfl]
              rw [List.cons_append, List.cons_append,
                msub_guard_some_empty h2, msub_guard_some_empty hsc,
                ih rest r (by omega) hr]
              rfl
            · have h2 : splitClose (rest ++ r) = some (before, after ++ r) := by
                rw [hrest, List.append_assoc, List.cons_append]
                exact splitClose_of_append hnb (after ++ r)
              rw [List.cons_append, List.cons_append,
                msub_guard_some h2 hbe, msub_guard_some hsc hbe,
                ih after r (by omega) hr]
              simp [List.append_assoc]
        · show msub (a :: b :: (rest ++ r)) = msub (a :: b :: rest) ++ r
          rw [msub_cons_cons hg, msub_cons_cons hg]
          show a :: msub ((b :: rest) ++ r) = (a :: msub (b :: rest)) ++ r
          rw [ih (b :: rest) r (by simp; omega) hr, List.cons_append]

theorem msub_append_ws {l r : List Char}
    (hr : ∀ c ∈ r, isPySpace c = true) : msub (l ++ r) = msub l ++ r :=
  msub_append_ws_fuel l.length l r (Nat.le_refl _) hr

theorem msubGroup_head_nonws {c : Char} (hc : isPySpace c = false)
    (t : List Char) : msubGroup (c :: t) = c :: t := by
  unfold msubGroup
  rw [List.dropWhile_cons_of_neg (by simp [hc])]
  rfl

theorem msubGroup_singleton (d : Char) : msubGroup [d] = [d] := by
  unfold msubGroup
  by_cases hd : isPySpace d = true
  · rw [List.dropWhile_cons_of_pos hd]
    rfl
  · rw [List.dropWhile_cons_of_neg hd]
    rfl

theorem msubGroup_ne_nil (b : List Char) : msubGroup b ≠ [] := by
  unfold msubGroup
  by_cases hg : (b.dropWhile isPySpace).isEmpty = true
  · rw [if_pos hg]; simp
  · rw [if_neg hg]
    intro hcon
    rw [hcon] at hg
    exact hg rfl

theorem msubGroup_no_close {b : List Char} (hb : ']' ∉ b) :
    ']' ∉ msubGroup b := by
  intro hm
  rcases msubGroup_mem hm with h | h
  · exact hb h
  · exact absurd h (by decide)

theorem msubGroup_fix_cases {b : List Char} (hb : b ≠ [])
    (hfix : msubGroup b = b) :
    (∃ c t, b = c :: t ∧ isPySpace c = false) ∨
    (∃ d, b = [d] ∧ isPySpace d = true) := by
  rcases b with _ | ⟨c, t⟩
  · exact absurd rfl hb
  · by_cases hc : isPySpace c = true
    · right
      unfold msubGroup at hfix
      rw [List.dropWhile_cons_of_pos hc] at hfix
      by_cases hg : (t.dropWhile isPySpace).isEmpty = true
      · rw [if_pos hg] at hfix
        have ht : t = [] := by
          cases t with
          | nil => rfl
          | cons x s =>
            injection hfix with h1 h2
            exact absurd h2.symm (by simp)
        subst ht
        exact ⟨c, rfl, hc⟩
      · rw [if_neg hg] at hfix
        exfalso
        have h1 := dropWhile_length_le isPySpace t
        have h2 : (t.dropWhile isPySpace).length = t.length + 1 := by
          rw [hfix]; rfl
        omega
    · exact Or.inl ⟨c, t, rfl, by simpa using hc⟩

theorem msubGroup_stable {b : List Char} (hb : b ≠ []) :
    msubGroup (msubGroup b) = msubGroup b := by
  rcases b with _ | ⟨c, t⟩
  · exact absurd rfl hb
  · by_cases hc : isPySpace c = true
    · have hrw : msubGroup (c :: t) =
          if (t.dropWhile isPySpace).isEmpty = true then [(c :: t).getLastD ' ']
          else t.dropWhile isPySpace := by
        unfold msubGroup
        rw [List.dropWhile_cons_of_pos hc]
      rw [hrw]
      by_cases hg : (t.dropWhile isPySpace).isEmpty = true
      · rw [if_pos hg]
        exact msubGroup_singleton _
      · rw [if_neg hg]
        rcases hd : t.dropWhile isPySpace with _ | ⟨x, s⟩
        · rw [hd] at hg
          exact absurd rfl hg
        · exact msubGroup_head_nonws (dropWhile_head_false hd) s
    · have hc2 : isPySpace c = false := by simpa using hc
      rw [msubGroup_head_nonws hc2 t, msubGroup_head_nonws hc2 t]

theorem msub_not_close_out {l : List Char} (h : ']' ∉ l) : ']' ∉ msub l := by
  intro hm
  rcases msub_mem hm with h1 | h1
  · exact h h1
  · exact absurd h1 (by decide)

theorem msub_idem_fuel : ∀ (k : Nat) (l : List Char),
    l.length ≤ k → msub (msub l) = msub l := by
  intro k
  induction k with
  | zero =>
    intro l hk
    rw [List.length_eq_zero.mp (Nat.le_zero.mp hk)]
    rfl
  | succ k ih =>
    intro l hk
    cases l with
    | nil => rfl
    | cons a t =>
      cases t with
      | nil => rfl
      | cons b rest =>
        simp only [List.length_cons] at hk
        by_cases hg : a = '[' ∧ b = '@'
        · obtain ⟨rfl, rfl⟩ := hg
          rcases hsc : splitClose rest with _ | ⟨before, after⟩
          · rw [msub_guard_none hsc,
              msub_guard_none (splitClose_none_of_not_mem
                (msub_not_close_out (not_mem_of_splitClose_none hsc))),
              ih rest (by omega)]
          · obtain ⟨hrest, hnb⟩ := splitClose_some hsc
            have hlen : rest.length = before.length + 1 + after.length := by
              rw [hrest]; simp only [List.length_append, List.length_cons]; omega
            by_cases hbe : before = []
            · subst hbe
              simp only [List.nil_append] at hrest
              rw [msub_guard_some_empty hsc]
              have hre : msub rest = ']' :: msub after := by
                rw [hrest]
                exact msub_cons_ne (by decide) after
              rw [hre]
              have h2 : splitClose (']' :: msub after) = some ([], msub after) := by
                rw [splitClose, if_pos rfl]
              rw [msub_guard_some_empty h2, msub_cons_ne (by decide) (msub after),
                ih after (by omega)]
            · rw [msub_guard_some hsc hbe]
              have h2 : splitClose (msubGroup before ++ ']' :: msub after) =
                  some (msubGroup before, msub after) :=
                splitClose_of_append (msubGroup_no_close hnb) _
              rw [msub_guard_some h2 (msubGroup_ne_nil before),
                msubGroup_stable hbe, ih after (by omega)]
        · obtain ⟨t2, ht2⟩ := msub_cons_head b rest
          have h3 := ih (b :: rest) (by simp; omega)
          rw [ht2] at h3
          rw [msub_cons_cons hg, ht2, msub_cons_cons hg, h3]

theorem msub_idem (l : List Char) : msub (msub l) = msub l :=
  msub_idem_fuel l.length l (Nat.le_refl _)

/-! ## Claim C9 development, part 3: the reduction relation `Red0` -/

theorem ws_ne_lb {c : Char} (h : isPySpace c = true) : c ≠ '[' := by
  intro hc
  rw [hc] at h
  exact absurd h (by decide)

theorem red0_refl : ∀ l : List Char, Red0 l l
  | [] => Red0.nil
  | c :: t => Red0.keep c (red0_refl t)

theorem red0_len {x y : List Char} (h : Red0 x y) : y.length ≤ x.length := by
  induction h with
  | nil => exact Nat.le_refl 0
  | keep c h ih => simp only [List.length_cons]; omega
  | subst hc hd h ih => simp only [List.length_cons]; omega
  | dropW hc hd h ih => simp only [List.length_cons] at ih ⊢; omega

theorem red0_tgt_nil {x : List Char} (h : Red0 x []) : x = [] := by
  cases h
  rfl

theorem red0_mem_nonws {x y : List Char} {c : Char} (hws : isPySpace c = false)
    (h : Red0 x y) : c ∈ y → c ∈ x := by
  induction h with
  | nil => intro hm; simp at hm
  | keep a h ih =>
    intro hm
    rcases List.mem_cons.mp hm with rfl | h1
    · exact List.mem_cons_self _ _
    · exact List.mem_cons_of_mem _ (ih h1)
  | subst ha hd h ih =>
    intro hm
    rcases List.mem_cons.mp hm with rfl | h1
    · rw [hd] at hws
      exact absurd hws (by simp)
    · exact List.mem_cons_of_mem _ (ih h1)
  | dropW ha hd h ih =>
    intro hm
    exact List.mem_cons_of_mem _ (ih hm)

theorem red0_append {x y x2 y2 : List Char} (h : Red0 x y) (h2 : Red0 x2 y2) :
    Red0 (x ++ x2) (y ++ y2) := by
  induction h with
  | nil => exact h2
  | keep a h ih => exact Red0.keep a ih
  | subst ha hd h ih => exact Red0.subst ha hd ih
  | dropW ha hd h ih => exact Red0.dropW ha hd ih

theorem red0_tgt_cons_nonws {u ys : List Char} {a : Char}
    (h : Red0 u (a :: ys)) (ha : isPySpace a = false) :
    ∃ xs, u = a :: xs ∧ Red0 xs ys := by
  cases h with
  | keep c h2 => exact ⟨_, rfl, h2⟩
  | subst hc hd h2 => rw [hd] at ha; simp at ha
  | dropW hc hd h2 => rw [hd] at ha; simp at ha

theorem red0_src_cons_nonws {c : Char} {xs y : List Char}
    (h : Red0 (c :: xs) y) (hc : isPySpace c = false) :
    ∃ t, y = c :: t ∧ Red0 xs t := by
  cases h with
  | keep a h2 => exact ⟨_, rfl, h2⟩
  | subst ha hd h2 => rw [ha] at hc; simp at hc
  | dropW ha hd h2 => rw [ha] at hc; simp at hc

theorem red0_tgt_cons_ws : ∀ (k : Nat) (u ys : List Char) (a : Char),
    u.length ≤ k → isPySpace a = true → Red0 u (a :: ys) →
    ∃ r c xs, u = r ++ c :: xs ∧ (∀ e ∈ r, isPySpace e = true) ∧
      isPySpace c = true ∧ Red0 xs ys := by
  intro k
  induction k with
  | zero =>
    intro u ys a hk _ h
    rw [List.length_eq_zero.mp (Nat.le_zero.mp hk)] at h
    cases h
  | succ k ih =>
    intro u ys a hk ha h
    cases h with
    | keep c h2 => exact ⟨[], a, _, rfl, by simp, ha, h2⟩
    | subst hc hd h2 => exact ⟨[], _, _, rfl, by simp, hc, h2⟩
    | dropW hc hd h2 =>
      rename_i c xs
      simp only [List.length_cons] at hk
      obtain ⟨r, c3, xs3, hu, hr, hc3, hred⟩ := ih xs ys a (by omega) ha h2
      refine ⟨c :: r, c3, xs3, by rw [hu, List.cons_append], ?_, hc3, hred⟩
      intro e he
      rcases List.mem_cons.mp he with rfl | h3
      · exact hc
      · exact hr e h3

theorem red0_dropRun (r : List Char) {xs ys : List Char} {d : Char}
    (hr : ∀ e ∈ r, isPySpace e = true) (hd : isPySpace d = true)
    (h : Red0 xs (d :: ys)) : Red0 (r ++ xs) (d :: ys) := by
  induction r with
  | nil => exact h
  | cons e t ih =>
    exact Red0.dropW (hr e (List.mem_cons_self e t)) hd
      (ih (fun e2 he2 => hr e2 (List.mem_cons_of_mem e he2)))

theorem red0_wsrun : ∀ (r2 r xs ys : List Char),
    (∀ e ∈ r, isPySpace e = true) → (∀ e ∈ r2, isPySpace e = true) →
    r2 ≠ [] → r2.length ≤ r.length → Red0 xs ys →
    Red0 (r ++ xs) (r2 ++ ys) := by
  intro r2
  induction r2 with
  | nil =>
    intro r xs ys _ _ hne _ _
    exact absurd rfl hne
  | cons d t ih =>
    intro r xs ys hr hr2 hne hlen h
    have hd : isPySpace d = true := hr2 d (List.mem_cons_self d t)
    cases t with
    | nil =>
      rcases List.eq_nil_or_concat r with rfl | ⟨r0, e, hre⟩
      · simp at hlen
      · rw [List.concat_eq_append] at hre
        subst hre
        have he : isPySpace e = true := hr e (by simp)
        have hsub : Red0 (e :: xs) (d :: ys) := Red0.subst he hd h
        have hrun := red0_dropRun r0
          (fun e2 he2 => hr e2 (by simp [he2])) hd hsub
        show Red0 ((r0 ++ [e]) ++ xs) ([d] ++ ys)
        rw [List.append_assoc]
        exact hrun
    | cons d2 t2 =>
      cases r with
      | nil => simp at hlen
      | cons e r3 =>
        have he : isPySpace e = true := hr e (by simp)
        simp only [List.length_cons] at hlen
        exact Red0.subst he hd
          (ih r3 xs ys (fun x hx => hr x (by simp [hx]))
            (fun x hx => hr2 x (by simp [hx])) (by simp)
            (by simp only [List.length_cons]; omega) h)

theorem append_close_inj {as bs cs ds : List Char} (ha : ']' ∉ as)
    (hc : ']' ∉ cs) (h : as ++ ']' :: bs = cs ++ ']' :: ds) :
    as = cs ∧ bs = ds := by
  have h1 := splitClose_of_append ha bs
  rw [h, splitClose_of_append hc ds] at h1
  injection h1 with h3
  injection h3 with h4 h5
  exact ⟨h4.symm, h5.symm⟩

theorem red0_decomp : ∀ (before : List Char), ']' ∉ before →
    ∀ {after w : List Char}, Red0 (before ++ ']' :: after) w →
    ∃ b2 a2, w = b2 ++ ']' :: a2 ∧ Red0 before b2 ∧ Red0 after a2 := by
  intro before
  induction before with
  | nil =>
    intro _ after w h
    rw [List.nil_append] at h
    obtain ⟨t, rfl, h2⟩ := red0_src_cons_nonws h (by decide)
    exact ⟨[], t, rfl, Red0.nil, h2⟩
  | cons c bs ih =>
    intro hnc after w h
    rw [List.cons_append] at h
    cases h with
    | keep a h2 =>
      obtain ⟨b2, a2, rfl, hb, hared⟩ :=
        ih (fun hm => hnc (List.mem_cons_of_mem c hm)) h2
      exact ⟨c :: b2, a2, by rw [List.cons_append], Red0.keep c hb, hared⟩
    | subst hc hd h2 =>
      rename_i d w1
      obtain ⟨b2, a2, hw, hb, hared⟩ :=
        ih (fun hm => hnc (List.mem_cons_of_mem c hm)) h2
      subst hw
      exact ⟨d :: b2, a2, by rw [List.cons_append], Red0.subst hc hd hb, hared⟩
    | dropW hc hd h2 =>
      rename_i d w1
      obtain ⟨b2, a2, hw, hb, hared⟩ :=
        ih (fun hm => hnc (List.mem_cons_of_mem c hm)) h2
      cases b2 with
      | nil =>
        rw [List.nil_append] at hw
        injection hw with h3 h4
        rw [h3] at hd
        exact absurd hd (by decide)
      | cons b3 bs3 =>
        rw [List.cons_append] at hw
        injection hw with h3 h4
        subst h3
        refine ⟨d :: bs3, a2, ?_, Red0.dropW hc hd hb, hared⟩
        rw [List.cons_append, h4]

theorem red0_src_nil_aux {y : List Char} (h : Red0 [] y) : y = [] := by
  cases h
  rfl

theorem msub_fix_peel_ws : ∀ {r : List Char} {c : Char} {xs : List Char},
    (∀ e ∈ r, isPySpace e = true) → isPySpace c = true →
    msub (r ++ c :: xs) = r ++ c :: xs → msub xs = xs := by
  intro r
  induction r with
  | nil =>
    intro c xs _ hc hfix
    rw [List.nil_append, msub_cons_ne (ws_ne_lb hc) xs] at hfix
    simpa using hfix
  | cons e t ih =>
    intro c xs hr hc hfix
    rw [List.cons_append,
      msub_cons_ne (ws_ne_lb (hr e (List.mem_cons_self e t))) _] at hfix
    have h2 : msub (t ++ c :: xs) = t ++ c :: xs := by simpa using hfix
    exact ih (fun x hx => hr x (List.mem_cons_of_mem e hx)) hc h2

theorem msub_red0_fix_fuel : ∀ (k : Nat) (u v : List Char), u.length ≤ k →
    msub u = u → Red0 u v → msub v = v := by
  intro k
  induction k with
  | zero =>
    intro u v hk _ h
    rw [List.length_eq_zero.mp (Nat.le_zero.mp hk)] at h
    rw [red0_src_nil_aux h]
    rfl
  | succ k ih =>
    intro u v hk hfix h
    cases v with
    | nil => rfl
    | cons a t =>
      cases t with
      | nil => rfl
      | cons b w =>
        by_cases hg : a = '[' ∧ b = '@'
        · obtain ⟨rfl, rfl⟩ := hg
          obtain ⟨xs, rfl, h1⟩ := red0_tgt_cons_nonws h (by decide)
          obtain ⟨xs2, rfl, h2⟩ := red0_tgt_cons_nonws h1 (by decide)
          simp only [List.length_cons] at hk
          rcases hsc : splitClose xs2 with _ | ⟨before, after⟩
          · have hnc : ']' ∉ xs2 := not_mem_of_splitClose_none hsc
            have hncw : ']' ∉ w := fun hm => hnc (red0_mem_nonws (by decide) h2 hm)
            rw [msub_guard_none (splitClose_none_of_not_mem hncw)]
            have hfx : msub xs2 = xs2 := by
              rw [msub_guard_none hsc] at hfix
              simpa using hfix
            rw [ih xs2 w (by omega) hfx h2]
          · obtain ⟨hrest, hnb⟩ := splitClose_some hsc
            by_cases hbe : before = []
            · subst hbe
              simp only [List.nil_append] at hrest
              subst hrest
              obtain ⟨t2, rfl, h3⟩ := red0_src_cons_nonws h2 (by decide)
              have h4 : splitClose (']' :: t2) = some ([], t2) := by
                rw [splitClose, if_pos rfl]
              rw [msub_guard_some_empty h4, msub_cons_ne (by decide) t2]
              have hfx : msub after = after := by
                rw [msub_guard_some_empty hsc,
                  msub_cons_ne (by decide) after] at hfix
                simpa using hfix
              simp only [List.length_cons] at hk
              rw [ih after t2 (by omega) hfx h3]
            · subst hrest
              obtain ⟨b2, a2, rfl, hbred, hared⟩ := red0_decomp before hnb h2
              rw [msub_guard_some hsc hbe] at hfix
              have h6 : msubGroup before ++ ']' :: msub after =
                  before ++ ']' :: after := by simpa using hfix
              obtain ⟨hgfix, hafix⟩ :=
                append_close_inj (msubGroup_no_close hnb) hnb h6
              have hb2ne : b2 ≠ [] := by
                intro hcon
                subst hcon
                exact hbe (red0_tgt_nil hbred)
              have hnb2 : ']' ∉ b2 :=
                fun hm => hnb (red0_mem_nonws (by decide) hbred hm)
              rw [msub_guard_some (splitClose_of_append hnb2 a2) hb2ne]
              have hg2 : msubGroup b2 = b2 := by
                rcases msubGroup_fix_cases hbe hgfix with
                  ⟨c3, t3, hcb, hc3⟩ | ⟨d3, hcb, hd3⟩
                · subst hcb
                  obtain ⟨t4, rfl, _⟩ := red0_src_cons_nonws hbred hc3
                  exact msubGroup_head_nonws hc3 t4
                · subst hcb
                  have hlb2 := red0_len hbred
                  cases b2 with
                  | nil => exact absurd rfl hb2ne
                  | cons x xs3 =>
                    cases xs3 with
                    | nil => exact msubGroup_singleton x
                    | cons y ys3 =>
                      simp only [List.length_cons, List.length_nil] at hlb2
                      omega
              simp only [List.length_append, List.length_cons] at hk
              rw [hg2, ih after a2 (by omega) hafix hared]
        · by_cases hws : isPySpace a = true
          · obtain ⟨r, c, xs, rfl, hr, hc, hred⟩ :=
              red0_tgt_cons_ws u.length u (b :: w) a (Nat.le_refl _) hws h
            have hfx : msub xs = xs := msub_fix_peel_ws hr hc hfix
            simp only [List.length_append, List.length_cons] at hk
            rw [msub_cons_cons hg, ih xs (b :: w) (by omega) hfx hred]
          · obtain ⟨xs, rfl, h1⟩ := red0_tgt_cons_nonws h (by simpa using hws)
            simp only [List.length_cons] at hk
            cases xs with
            | nil => cases h1
            | cons x xs3 =>
              have hxg : ¬(a = '[' ∧ x = '@') := by
                rintro ⟨rfl, rfl⟩
                obtain ⟨t3, ht3, _⟩ := red0_src_cons_nonws h1 (by decide)
                have h6 : b = '@' ∧ w = t3 := by simpa using ht3
                exact hg ⟨rfl, h6.1⟩
              have hfx : msub (x :: xs3) = x :: xs3 := by
                rw [msub_cons_cons hxg] at hfix
                simpa using hfix
              simp only [List.length_cons] at hk
              rw [msub_cons_cons hg, ih (x :: xs3) (b :: w)
                (by simp only [List.length_cons]; omega) hfx h1]

theorem msub_red0_fix {u v : List Char} (hfix : msub u = u) (h : Red0 u v) :
    msub v = v :=
  msub_red0_fix_fuel u.length u v (Nat.le_refl _) hfix h

/-! ## Claim C9 development, part 4: the per-line collapse `collapseGo` -/

theorem st_ws {c : Char} (h : isST c = true) : isPySpace c = true := by
  have h2 : c = ' ' ∨ c = '\t' := by simpa [isST] using h
  rcases h2 with rfl | rfl <;> decide

theorem nonws_nonst {c : Char} (h : isPySpace c = false) : isST c = false := by
  by_cases hst : isST c = true
  · rw [st_ws hst] at h
    exact absurd h (by simp)
  · simpa using hst

theorem collapseGo_cons (f : Bool) (c : Char) (cs : List Char) :
    collapseGo f (c :: cs) =
      if isST c = true then
        (if f = true then collapseGo true cs else ' ' :: collapseGo true cs)
      else c :: collapseGo false cs := rfl

theorem collapseGo_nil (f : Bool) : collapseGo f [] = [] := rfl

theorem collapseGo_cons_nonst {c : Char} (hc : isST c = false) (f : Bool)
    (cs : List Char) : collapseGo f (c :: cs) = c :: collapseGo false cs := by
  rw [collapseGo_cons, if_neg (by simp [hc])]

theorem collapseGo_true_dropST : ∀ cs : List Char,
    collapseGo true cs = collapseGo false (cs.dropWhile isST) := by
  intro cs
  induction cs with
  | nil => rfl
  | cons c t ih =>
    by_cases hst : isST c = true
    · rw [collapseGo_cons, if_pos hst, if_pos rfl, ih,
        List.dropWhile_cons_of_pos hst]
    · have hst2 : isST c = false := by simpa using hst
      rw [collapseGo_cons_nonst hst2, List.dropWhile_cons_of_neg hst,
        collapseGo_cons_nonst hst2]

theorem collapseGo_head_nonst {y : List Char}
    (hy : ∀ c t, y = c :: t → isST c = false) (b : Bool) :
    collapseGo b y = collapseGo false y := by
  cases y with
  | nil => cases b <;> rfl
  | cons c t =>
    rw [collapseGo_cons_nonst (hy c t rfl), collapseGo_cons_nonst (hy c t rfl)]

theorem collapseGo_mem : ∀ {x : List Char} {f : Bool} {c : Char},
    c ∈ collapseGo f x → c ∈ x ∨ c = ' ' := by
  intro x
  induction x with
  | nil =>
    intro f c h
    rw [collapseGo_nil] at h
    simp at h
  | cons a t ih =>
    intro f c h
    by_cases hst : isST a = true
    · rw [collapseGo_cons, if_pos hst] at h
      cases f with
      | true =>
        rw [if_pos rfl] at h
        rcases ih h with h1 | h1
        · exact Or.inl (List.mem_cons_of_mem a h1)
        · exact Or.inr h1
      | false =>
        rw [if_neg (by simp)] at h
        rcases List.mem_cons.mp h with rfl | h1
        · exact Or.inr rfl
        rcases ih h1 with h2 | h2
        · exact Or.inl (List.mem_cons_of_mem a h2)
        · exact Or.inr h2
    · rw [collapseGo_cons_nonst (by simpa using hst)] at h
      rcases List.mem_cons.mp h with rfl | h1
      · exact Or.inl (List.mem_cons_self _ _)
      rcases ih h1 with h2 | h2
      · exact Or.inl (List.mem_cons_of_mem a h2)
      · exact Or.inr h2

theorem collapseGo_allws {x : List Char} (hx : ∀ c ∈ x, isPySpace c = true)
    (f : Bool) : ∀ c ∈ collapseGo f x, isPySpace c = true := by
  intro c hc
  rcases collapseGo_mem hc with h | h
  · exact hx c h
  · rw [h]; decide

theorem collapseGo_append_nonst {y : List Char}
    (hy : ∀ c t, y = c :: t → isST c = false) :
    ∀ (x : List Char) (f : Bool),
      collapseGo f (x ++ y) = collapseGo f x ++ collapseGo false y := by
  intro x
  induction x with
  | nil =>
    intro f
    rw [List.nil_append, collapseGo_nil, List.nil_append]
    exact collapseGo_head_nonst hy f
  | cons c t ih =>
    intro f
    by_cases hst : isST c = true
    · rw [List.cons_append, collapseGo_cons, collapseGo_cons,
        if_pos hst, if_pos hst]
      cases f with
      | true => rw [if_pos rfl, if_pos rfl, ih true]
      | false =>
        rw [if_neg (by simp), if_neg (by simp), ih true, List.cons_append]
    · have hst2 : isST c = false := by simpa using hst
      rw [List.cons_append, collapseGo_cons_nonst hst2,
        collapseGo_cons_nonst hst2, ih false, List.cons_append]

theorem collapseGo_single_nonst {e : Char} (he : isST e = false) :
    collapseGo false [e] = [e] := by
  rw [collapseGo_cons_nonst he, collapseGo_nil]

theorem collapseGo_snoc_split {e : Char} (he : isST e = false) :
    ∀ (x : List Char) (f : Bool) (b : List Char),
    collapseGo f (x ++ e :: b) =
      collapseGo f (x ++ [e]) ++ collapseGo false b := by
  intro x
  induction x with
  | nil =>
    intro f b
    rw [List.nil_append, List.nil_append, collapseGo_cons_nonst he,
      collapseGo_cons_nonst he, collapseGo_nil]
    rfl
  | cons a t ih =>
    intro f b
    by_cases hst : isST a = true
    · rw [List.cons_append, List.cons_append, collapseGo_cons, collapseGo_cons,
        if_pos hst, if_pos hst]
      cases f with
      | true => rw [if_pos rfl, if_pos rfl, ih true b]
      | false =>
        rw [if_neg (by simp), if_neg (by simp), ih true b, List.cons_append]
    · have hst2 : isST a = false := by simpa using hst
      rw [List.cons_append, List.cons_append, collapseGo_cons_nonst hst2,
        collapseGo_cons_nonst hst2, ih false b, List.cons_append]

theorem red0_collapse_fuel : ∀ (k : Nat) (l : List Char), l.length ≤ k →
    Red0 l (collapseGo false l) := by
  intro k
  induction k with
  | zero =>
    intro l hk
    rw [List.length_eq_zero.mp (Nat.le_zero.mp hk)]
    exact Red0.nil
  | succ k ih =>
    intro l hk
    cases l with
    | nil => exact Red0.nil
    | cons c cs =>
      simp only [List.length_cons] at hk
      by_cases hst : isST c = true
      · have hrun : collapseGo false (c :: cs) =
            ' ' :: collapseGo false (cs.dropWhile isST) := by
          rw [collapseGo_cons, if_pos hst, if_neg (by simp),
            collapseGo_true_dropST]
        rw [hrun]
        have hsplit : (c :: cs).takeWhile isST ++ (c :: cs).dropWhile isST
            = c :: cs := List.takeWhile_append_dropWhile _ _
        have hdrop : (c :: cs).dropWhile isST = cs.dropWhile isST :=
          List.dropWhile_cons_of_pos hst
        have htake : (c :: cs).takeWhile isST = c :: cs.takeWhile isST :=
          List.takeWhile_cons_of_pos hst
        have hred : Red0 ((c :: cs).takeWhile isST ++ (c :: cs).dropWhile isST)
            ([' '] ++ collapseGo false (cs.dropWhile isST)) := by
          apply red0_wsrun
          · intro e he
            exact st_ws (takeWhile_mem_p he)
          · intro e he
            rw [List.mem_singleton.mp he]; decide
          · simp
          · rw [htake]; simp
          · rw [hdrop]
            exact ih (cs.dropWhile isST) (Nat.le_trans (dropWhile_length_le _ _) (by omega))
        rw [hsplit] at hred
        exact hred
      · have hst2 : isST c = false := by simpa using hst
        rw [collapseGo_cons_nonst hst2]
        exact Red0.keep c (ih cs (by omega))

theorem red0_collapse (l : List Char) : Red0 l (collapseWs l) :=
  red0_collapse_fuel l.length l (Nat.le_refl _)

theorem collapseGo_idem_fuel : ∀ (k : Nat) (x : List Char) (b : Bool),
    x.length ≤ k → collapseGo false (collapseGo b x) = collapseGo b x := by
  intro k
  induction k with
  | zero =>
    intro x b hk
    rw [List.length_eq_zero.mp (Nat.le_zero.mp hk)]
    cases b <;> rfl
  | succ k ih =>
    intro x b hk
    cases x with
    | nil => cases b <;> rfl
    | cons c cs =>
      simp only [List.length_cons] at hk
      by_cases hst : isST c = true
      · cases b with
        | true =>
          rw [collapseGo_cons, if_pos hst, if_pos rfl, collapseGo_true_dropST]
          exact ih (cs.dropWhile isST) false
            (Nat.le_trans (dropWhile_length_le _ _) (by omega))
        | false =>
          rw [collapseGo_cons, if_pos hst, if_neg (by simp)]
          rw [collapseGo_cons, if_pos (by decide), if_neg (by simp)]
          have hds := ih (cs.dropWhile isST) false
            (Nat.le_trans (dropWhile_length_le _ _) (by omega))
          have hhd : ∀ d t, collapseGo false (cs.dropWhile isST) = d :: t →
              isST d = false := by
            intro d t hdt
            rcases hcs : cs.dropWhile isST with _ | ⟨d2, t2⟩
            · rw [hcs] at hdt
              exact absurd hdt (by simp [collapseGo_nil])
            · have hd2 : isST d2 = false := by
                have := dropWhile_head_false hcs
                simpa using this
              rw [hcs, collapseGo_cons_nonst hd2] at hdt
              injection hdt with h1 _
              rw [← h1]
              exact hd2
          rw [collapseGo_true_dropST cs, collapseGo_head_nonst hhd true, hds]
      · have hst2 : isST c = false := by simpa using hst
        rw [collapseGo_cons_nonst hst2, collapseGo_cons_nonst hst2,
          ih cs false (by omega)]

theorem collapseWs_idem (x : List Char) : collapseWs (collapseWs x) = collapseWs x :=
  collapseGo_idem_fuel x.length x false (Nat.le_refl _)

theorem dropTrail_idem (p : Char → Bool) (l : List Char) :
    dropTrailWhile p (dropTrailWhile p l) = dropTrailWhile p l := by
  unfold dropTrailWhile
  rw [List.reverse_reverse, dropWhile_idem]

theorem dropWhile_nil_allp {α : Type} {p : α → Bool} : ∀ {l : List α},
    l.dropWhile p = [] → ∀ x ∈ l, p x = true := by
  intro l
  induction l with
  | nil => intro _ x hx; simp at hx
  | cons c t ih =>
    intro h x hx
    by_cases hp : p c = true
    · rw [List.dropWhile_cons_of_pos hp] at h
      rcases List.mem_cons.mp hx with rfl | h1
      · exact hp
      · exact ih h x h1
    · rw [List.dropWhile_cons_of_neg hp] at h
      exact absurd h (by simp)

theorem lineClean_core (l : List Char) : lineClean l =
    collapseWs (dropTrailWhile isPySpace (l.dropWhile isPySpace)) := by
  rcases hm0 : l.dropWhile isPySpace with _ | ⟨c, m0t⟩
  · have hall : ∀ x ∈ l, isPySpace x = true := dropWhile_nil_allp hm0
    have hstrip : pystrip (collapseGo false l) = [] := by
      unfold pystrip
      rw [dropWhile_allp (collapseGo_allws hall false)]
      rfl
    show pystrip (collapseGo false l) = collapseWs (dropTrailWhile isPySpace [])
    rw [hstrip]
    rfl
  · have hc : isPySpace c = false := dropWhile_head_false hm0
    have hcst : isST c = false := nonws_nonst hc
    have hsplit : l.takeWhile isPySpace ++ (c :: m0t) = l := by
      rw [← hm0]
      exact List.takeWhile_append_dropWhile _ _
    obtain ⟨b1, hb1, hb1w⟩ := dropTrail_decomp isPySpace (c :: m0t)
    rcases hm : dropTrailWhile isPySpace (c :: m0t) with _ | ⟨c2, mt⟩
    · rw [hm, List.nil_append] at hb1
      have := hb1w c (by rw [← hb1]; exact List.mem_cons_self _ _)
      rw [hc] at this
      exact absurd this (by simp)
    · rw [hm] at hb1
      rw [List.cons_append] at hb1
      have hpair : c = c2 ∧ m0t = mt ++ b1 := by simpa using hb1
      obtain ⟨hc2eq, hm0t⟩ := hpair
      have hc2 : isPySpace c2 = false := by rw [← hc2eq]; exact hc
      have hc2st : isST c2 = false := nonws_nonst hc2
      have hmfix : dropTrailWhile isPySpace (c2 :: mt) = c2 :: mt := by
        rw [← hm]
        exact dropTrail_idem _ _
      obtain ⟨x0, e, hxe, hew⟩ := dropTrail_fix_snoc hmfix (by simp)
      have hest : isST e = false := nonws_nonst hew
      -- collapse of the full line
      have hstep1 : collapseWs l =
          collapseGo false (l.takeWhile isPySpace) ++
            collapseGo false ((c2 :: mt) ++ b1) := by
        show collapseGo false l = _
        conv_lhs => rw [← hsplit]
        have hy : ∀ d t, (c :: m0t) = d :: t → isST d = false := by
          intro d t hdt
          injection hdt with h1 _
          rw [← h1]
          exact hcst
        rw [collapseGo_append_nonst hy (l.takeWhile isPySpace) false]
        have : c :: m0t = (c2 :: mt) ++ b1 := by
          rw [List.cons_append, ← hc2eq, ← hm0t]
        rw [this]
      have hCMsnoc : collapseGo false (c2 :: mt) =
          collapseGo false x0 ++ [e] := by
        rw [hxe, collapseGo_append_nonst
          (by intro d t hdt; injection hdt with h1 _; rw [← h1]; exact hest) x0 false,
          collapseGo_single_nonst hest]
      have hstep2 : collapseGo false ((c2 :: mt) ++ b1) =
          (collapseGo false (c2 :: mt)) ++ collapseGo false b1 := by
        have hx2 : (c2 :: mt) ++ b1 = x0 ++ e :: b1 := by
          rw [hxe]; simp
        rw [hx2, collapseGo_snoc_split hest x0 false b1, ← hxe]
      have hCA : ∀ d ∈ collapseGo false (l.takeWhile isPySpace),
          isPySpace d = true :=
        collapseGo_allws (fun x hx => takeWhile_mem_p hx) false
      have hCB : ∀ d ∈ collapseGo false b1, isPySpace d = true :=
        collapseGo_allws hb1w false
      have hCM : collapseGo false (c2 :: mt) =
          c2 :: collapseGo false mt := collapseGo_cons_nonst hc2st false mt
      show pystrip (collapseWs l) = collapseWs (c2 :: mt)
      rw [hstep1, hstep2]
      unfold pystrip
      rw [dropWhile_append_allp hCA]
      have hdw : (collapseGo false (c2 :: mt) ++ collapseGo false b1).dropWhile
          isPySpace = collapseGo false (c2 :: mt) ++ collapseGo false b1 := by
        rw [hCM, List.cons_append]
        exact List.dropWhile_cons_of_neg (by simp [hc2])
      rw [hdw, dropTrail_append_allp hCB, hCMsnoc, dropTrail_snoc_neg hew,
        ← hCMsnoc]
      rfl

/-! ## Claim C9 development, part 5: `splitNl` / `joinNl` algebra -/

theorem splitNl_cons (c : Char) (cs : List Char) :
    splitNl (c :: cs) =
      if c = '\n' then [] :: splitNl cs
      else
        match splitNl cs with
        | [] => [[c]]
        | l :: ls => (c :: l) :: ls := rfl

theorem joinNl_cons_ne {ms : List (List Char)} (h : ms ≠ []) (m : List Char) :
    joinNl (m :: ms) = m ++ '\n' :: joinNl ms := by
  cases ms with
  | nil => exact absurd rfl h
  | cons a t => rfl

theorem splitNl_ne_nil : ∀ l : List Char, splitNl l ≠ [] := by
  intro l
  induction l with
  | nil => simp [splitNl]
  | cons c cs ih =>
    by_cases hc : c = '\n'
    · rw [splitNl_cons, if_pos hc]
      simp
    · rw [splitNl_cons, if_neg hc]
      rcases h : splitNl cs with _ | ⟨a, t⟩
      · exact absurd h ih
      · simp

theorem join_split : ∀ l : List Char, joinNl (splitNl l) = l := by
  intro l
  induction l with
  | nil => rfl
  | cons c cs ih =>
    by_cases hc : c = '\n'
    · subst hc
      rw [splitNl_cons, if_pos rfl, joinNl_cons_ne (splitNl_ne_nil cs),
        List.nil_append, ih]
    · rw [splitNl_cons, if_neg hc]
      rcases h : splitNl cs with _ | ⟨a, t⟩
      · exact absurd h (splitNl_ne_nil cs)
      · rw [h] at ih
        show joinNl ((c :: a) :: t) = c :: cs
        cases t with
        | nil =>
          show c :: a = c :: cs
          rw [← ih]
          rfl
        | cons b t2 =>
          rw [joinNl_cons_ne (by simp) a] at ih
          rw [joinNl_cons_ne (by simp) (c :: a), List.cons_append, ih]

theorem splitNl_no_nl : ∀ (l : List Char) (m : List Char), m ∈ splitNl l →
    ('\n' : Char) ∉ m := by
  intro l
  induction l with
  | nil =>
    intro m hm
    have : m = [] := by simpa [splitNl] using hm
    subst this
    simp
  | cons c cs ih =>
    intro m hm
    by_cases hc : c = '\n'
    · rw [splitNl_cons, if_pos hc] at hm
      rcases List.mem_cons.mp hm with rfl | h1
      · simp
      · exact ih m h1
    · rw [splitNl_cons, if_neg hc] at hm
      rcases h : splitNl cs with _ | ⟨a, t⟩
      · exact absurd h (splitNl_ne_nil cs)
      · rw [h] at hm
        have hm2 : m ∈ (c :: a) :: t := hm
        rcases List.mem_cons.mp hm2 with rfl | h1
        · intro hcon
          rcases List.mem_cons.mp hcon with h2 | h2
          · exact hc h2.symm
          · exact ih a (by rw [h]; exact List.mem_cons_self _ _) h2
        · exact ih m (by rw [h]; exact List.mem_cons_of_mem _ h1)

theorem splitNl_id_of_no_nl : ∀ {m : List Char}, ('\n' : Char) ∉ m →
    splitNl m = [m] := by
  intro m
  induction m with
  | nil => intro _; rfl
  | cons c cs ih =>
    intro h
    have hc : c ≠ '\n' :=
      fun hcc => h (by rw [← hcc]; exact List.mem_cons_self c cs)
    rw [splitNl_cons, if_neg hc, ih (fun hm => h (List.mem_cons_of_mem c hm))]

theorem splitNl_append_nl : ∀ {m : List Char}, ('\n' : Char) ∉ m →
    ∀ R, splitNl (m ++ '\n' :: R) = m :: splitNl R := by
  intro m
  induction m with
  | nil =>
    intro _ R
    rw [List.nil_append, splitNl_cons, if_pos rfl]
  | cons c cs ih =>
    intro h R
    have hc : c ≠ '\n' :=
      fun hcc => h (by rw [← hcc]; exact List.mem_cons_self c cs)
    rw [List.cons_append, splitNl_cons, if_neg hc,
      ih (fun hm => h (List.mem_cons_of_mem c hm)) R]

theorem split_join : ∀ (ms : List (List Char)),
    (∀ m ∈ ms, ('\n' : Char) ∉ m) → ms ≠ [] → splitNl (joinNl ms) = ms := by
  intro ms
  induction ms with
  | nil => intro _ h; exact absurd rfl h
  | cons m ms2 ih =>
    intro hnl _
    cases ms2 with
    | nil =>
      show splitNl (joinNl [m]) = [m]
      exact splitNl_id_of_no_nl (hnl m (List.mem_cons_self _ _))
    | cons a t =>
      rw [joinNl_cons_ne (by simp),
        splitNl_append_nl (hnl m (List.mem_cons_self _ _)) (joinNl (a :: t)),
        ih (fun x hx => hnl x (List.mem_cons_of_mem m hx)) (by simp)]

theorem joinNl_mem : ∀ {ms : List (List Char)} {c : Char}, c ∈ joinNl ms →
    c = '\n' ∨ ∃ m, m ∈ ms ∧ c ∈ m := by
  intro ms
  induction ms with
  | nil =>
    intro c h
    simp [joinNl] at h
  | cons m ms2 ih =>
    intro c h
    cases ms2 with
    | nil => exact Or.inr ⟨m, List.mem_cons_self _ _, h⟩
    | cons a t =>
      rw [joinNl_cons_ne (by simp)] at h
      rcases List.mem_append.mp h with h1 | h1
      · exact Or.inr ⟨m, List.mem_cons_self _ _, h1⟩
      rcases List.mem_cons.mp h1 with rfl | h2
      · exact Or.inl rfl
      rcases ih h2 with h3 | ⟨m2, hm2, hc2⟩
      · exact Or.inl h3
      · exact Or.inr ⟨m2, List.mem_cons_of_mem _ hm2, hc2⟩

theorem joinNl_snoc : ∀ (ms : List (List Char)) (x : List Char), ms ≠ [] →
    joinNl (ms ++ [x]) = joinNl ms ++ '\n' :: x := by
  intro ms
  induction ms with
  | nil => intro x h; exact absurd rfl h
  | cons m t ih =>
    intro x _
    cases t with
    | nil => rfl
    | cons a t2 =>
      rw [List.cons_append, joinNl_cons_ne (by simp), joinNl_cons_ne (by simp),
        ih x (by simp), List.append_assoc]
      rfl

theorem splitNl_mem_chars : ∀ (l : List Char) {m : List Char} {c : Char},
    m ∈ splitNl l → c ∈ m → c ∈ l := by
  intro l
  induction l with
  | nil =>
    intro m c hm hc
    have : m = [] := by simpa [splitNl] using hm
    subst this
    simp at hc
  | cons d cs ih =>
    intro m c hm hc
    by_cases hd : d = '\n'
    · rw [splitNl_cons, if_pos hd] at hm
      rcases List.mem_cons.mp hm with rfl | h1
      · simp at hc
      · exact List.mem_cons_of_mem d (ih h1 hc)
    · rw [splitNl_cons, if_neg hd] at hm
      rcases h : splitNl cs with _ | ⟨a, t⟩
      · exact absurd h (splitNl_ne_nil cs)
      · rw [h] at hm
        have hm2 : m ∈ (d :: a) :: t := hm
        rcases List.mem_cons.mp hm2 with rfl | h1
        · rcases List.mem_cons.mp hc with rfl | h2
          · exact List.mem_cons_self _ _
          · exact List.mem_cons_of_mem d
              (ih (by rw [h]; exact List.mem_cons_self _ _) h2)
        · exact List.mem_cons_of_mem d
            (ih (by rw [h]; exact List.mem_cons_of_mem _ h1) hc)

/-! ## Claim C9 development, part 6: stage 3 simulates along `Red0` -/

theorem dropWhile_congr_mem {α : Type} {p q : α → Bool} : ∀ {l : List α},
    (∀ x ∈ l, p x = q x) → l.dropWhile p = l.dropWhile q := by
  intro l
  induction l with
  | nil => intro _; rfl
  | cons c t ih =>
    intro h
    have hc := h c (List.mem_cons_self c t)
    by_cases hp : p c = true
    · rw [List.dropWhile_cons_of_pos hp,
        List.dropWhile_cons_of_pos (by rw [← hc]; exact hp)]
      exact ih (fun x hx => h x (List.mem_cons_of_mem c hx))
    · rw [List.dropWhile_cons_of_neg hp,
        List.dropWhile_cons_of_neg (by rw [← hc]; exact hp)]

theorem dropTrail_congr_mem {p q : Char → Bool} {l : List Char}
    (h : ∀ x ∈ l, p x = q x) : dropTrailWhile p l = dropTrailWhile q l := by
  unfold dropTrailWhile
  rw [dropWhile_congr_mem (fun x hx => h x (List.mem_reverse.mp hx))]

theorem lws_nl : lws '\n' = false := by decide

theorem lws_ws : ∀ c : Char, lws c = true → isPySpace c = true := by
  intro c h
  simp [lws] at h
  exact h.1

theorem lws_eq_ws_of_ne {c : Char} (h : c ≠ '\n') : lws c = isPySpace c := by
  unfold lws
  have h2 : (c == '\n') = false := by simpa using h
  rw [h2]
  simp

theorem list_append_cancel_left {α : Type} :
    ∀ (a : List α) {b c : List α}, a ++ b = a ++ c → b = c := by
  intro a
  induction a with
  | nil => intro b c h; exact h
  | cons x t ih =>
    intro b c h
    rw [List.cons_append, List.cons_append] at h
    injection h with _ h2
    exact ih h2

theorem list_append_cancel_right {α : Type} {a b : List α} (c : List α)
    (h : a ++ c = b ++ c) : a = b := by
  have h2 := congrArg List.reverse h
  rw [List.reverse_append, List.reverse_append] at h2
  have h3 := list_append_cancel_left c.reverse h2
  have h4 := congrArg List.reverse h3
  rw [List.reverse_reverse, List.reverse_reverse] at h4
  exact h4

theorem msub_fix_dropWhile {q : Char → Bool}
    (hq : ∀ c, q c = true → isPySpace c = true) :
    ∀ {y : List Char}, msub y = y → msub (y.dropWhile q) = y.dropWhile q := by
  intro y
  induction y with
  | nil => intro h; exact h
  | cons c ys ih =>
    intro hfix
    by_cases hc : q c = true
    · rw [List.dropWhile_cons_of_pos hc]
      rw [msub_cons_ne (ws_ne_lb (hq c hc)) ys] at hfix
      have h2 : msub ys = ys := by simpa using hfix
      exact ih h2
    · rw [List.dropWhile_cons_of_neg hc]
      exact hfix

theorem msub_fix_dropTrail {q : Char → Bool}
    (hq : ∀ c, q c = true → isPySpace c = true)
    {y : List Char} (hfix : msub y = y) :
    msub (dropTrailWhile q y) = dropTrailWhile q y := by
  obtain ⟨b, hb, hbq⟩ := dropTrail_decomp q y
  have h2 : msub (dropTrailWhile q y ++ b) = msub (dropTrailWhile q y) ++ b :=
    msub_append_ws (fun c hc => hq c (hbq c hc))
  rw [← hb, hfix] at h2
  have h3 : msub (dropTrailWhile q y) ++ b = dropTrailWhile q y ++ b :=
    h2.symm.trans hb
  exact list_append_cancel_right b h3

theorem red0_stripped_cont (l1 : List Char) {S T tt : List Char} {d : Char}
    (hred : Red0 S T) (hT : T = d :: tt) (hd : isPySpace d = true) :
    Red0 ((l1.dropWhile isPySpace) ++ S) (lineClean l1 ++ T) := by
  rcases hm0 : l1.dropWhile isPySpace with _ | ⟨c, m0t⟩
  · have hlc : lineClean l1 = [] := by
      rw [lineClean_core, hm0]
      rfl
    rw [hlc, List.nil_append, List.nil_append]
    exact hred
  · obtain ⟨B, hB, hBws⟩ := dropTrail_decomp isPySpace (c :: m0t)
    have hlc : lineClean l1 = collapseWs (dropTrailWhile isPySpace (c :: m0t)) := by
      rw [lineClean_core, hm0]
    rw [hlc]
    conv_lhs => rw [hB]
    rw [List.append_assoc]
    refine red0_append (red0_collapse _) ?_
    rw [hT]
    exact red0_dropRun B hBws hd (hT ▸ hred)

theorem red0_line_cont (l1 : List Char) {S T tt : List Char} {d : Char}
    (hred : Red0 S T) (hT : T = d :: tt) (hd : isPySpace d = true) :
    Red0 ('\n' :: (l1 ++ S)) ('\n' :: (lineClean l1 ++ T)) := by
  have hsplit := List.takeWhile_append_dropWhile isPySpace l1
  have hrun : Red0
      (('\n' :: l1.takeWhile isPySpace) ++ (l1.dropWhile isPySpace ++ S))
      (['\n'] ++ (lineClean l1 ++ T)) := by
    apply red0_wsrun
    · intro e he
      rcases List.mem_cons.mp he with rfl | h1
      · decide
      · exact takeWhile_mem_p h1
    · intro e he
      rw [List.mem_singleton.mp he]
      decide
    · simp
    · simp
    · exact red0_stripped_cont l1 hred hT hd
  have hshape :
      ('\n' :: l1.takeWhile isPySpace) ++ (l1.dropWhile isPySpace ++ S) =
        '\n' :: (l1 ++ S) := by
    rw [List.cons_append, ← List.append_assoc, hsplit]
  rw [hshape] at hrun
  exact hrun

theorem joinrelAux : ∀ (ls : List (List Char)) (l1 : List Char),
    (∀ m ∈ l1 :: ls, ('\n' : Char) ∉ m) →
    Red0 (dropTrailWhile lws ('\n' :: joinNl (l1 :: ls)))
      ('\n' :: joinNl ((l1 :: ls).map lineClean)) := by
  intro ls
  induction ls with
  | nil =>
    intro l1 hnl
    have hnl1 := hnl l1 (List.mem_cons_self _ _)
    show Red0 (dropTrailWhile lws ('\n' :: l1)) ('\n' :: lineClean l1)
    rw [dropTrail_cons_neg lws_nl l1,
      dropTrail_congr_mem (fun x hx => lws_eq_ws_of_ne (fun hc => hnl1 (hc ▸ hx)))]
    rcases hm0 : l1.dropWhile isPySpace with _ | ⟨c, m0t⟩
    · have hall : ∀ x ∈ l1, isPySpace x = true := dropWhile_nil_allp hm0
      have h1 : dropTrailWhile isPySpace l1 = [] := dropTrail_eq_nil_allp hall
      have hlc : lineClean l1 = [] := by
        rw [lineClean_core, hm0]
        rfl
      rw [h1, hlc]
      exact Red0.keep '\n' Red0.nil
    · have hm : dropTrailWhile isPySpace (c :: m0t) ≠ [] := by
        intro hcon
        obtain ⟨B, hB, hBws⟩ := dropTrail_decomp isPySpace (c :: m0t)
        rw [hcon, List.nil_append] at hB
        have h2 := hBws c (by rw [← hB]; exact List.mem_cons_self _ _)
        rw [dropWhile_head_false hm0] at h2
        exact absurd h2 (by simp)
      have h1 : dropTrailWhile isPySpace l1 =
          l1.takeWhile isPySpace ++ dropTrailWhile isPySpace (c :: m0t) := by
        conv_lhs => rw [← List.takeWhile_append_dropWhile isPySpace l1, hm0]
        exact dropTrail_append_of_ne_nil hm _
      rw [h1, lineClean_core, hm0]
      have hrun : Red0
          (('\n' :: l1.takeWhile isPySpace) ++
            dropTrailWhile isPySpace (c :: m0t))
          (['\n'] ++ collapseWs (dropTrailWhile isPySpace (c :: m0t))) := by
        apply red0_wsrun
        · intro e he
          rcases List.mem_cons.mp he with rfl | hh
          · decide
          · exact takeWhile_mem_p hh
        · intro e he
          rw [List.mem_singleton.mp he]
          decide
        · simp
        · simp
        · exact red0_collapse _
      rw [List.cons_append] at hrun
      exact hrun
  | cons l2 rest ih =>
    intro l1 hnl
    have hj : joinNl (l1 :: l2 :: rest) = l1 ++ '\n' :: joinNl (l2 :: rest) :=
      joinNl_cons_ne (by simp) l1
    have hLHS : dropTrailWhile lws ('\n' :: joinNl (l1 :: l2 :: rest)) =
        '\n' :: (l1 ++ ('\n' :: dropTrailWhile lws (joinNl (l2 :: rest)))) := by
      rw [hj]
      have h2 : '\n' :: (l1 ++ '\n' :: joinNl (l2 :: rest)) =
          ('\n' :: l1) ++ '\n' :: joinNl (l2 :: rest) := by
        rw [List.cons_append]
      rw [h2, dropTrail_append_stop lws_nl, List.cons_append]
    have hred := ih l2 (fun m hm => hnl m (List.mem_cons_of_mem l1 hm))
    rw [dropTrail_cons_neg lws_nl _] at hred
    have hRHS : joinNl ((l1 :: l2 :: rest).map lineClean) =
        lineClean l1 ++ '\n' :: joinNl ((l2 :: rest).map lineClean) := by
      show joinNl (lineClean l1 :: (l2 :: rest).map lineClean) = _
      rw [joinNl_cons_ne (by simp) (lineClean l1)]
    rw [hLHS, hRHS]
    exact red0_line_cont l1 hred rfl (by decide)

theorem joinrelTop : ∀ (ls : List (List Char)),
    (∀ m ∈ ls, ('\n' : Char) ∉ m) → ls ≠ [] →
    Red0 (dropTrailWhile lws ((joinNl ls).dropWhile lws))
      (joinNl (ls.map lineClean)) := by
  intro ls hnl hne
  cases ls with
  | nil => exact absurd rfl hne
  | cons l1 rest =>
    have hnl1 := hnl l1 (List.mem_cons_self _ _)
    cases rest with
    | nil =>
      show Red0 (dropTrailWhile lws (l1.dropWhile lws)) (joinNl [lineClean l1])
      have he1 : l1.dropWhile lws = l1.dropWhile isPySpace :=
        dropWhile_congr_mem
          (fun x hx => lws_eq_ws_of_ne (fun hc => hnl1 (hc ▸ hx)))
      have he2 : dropTrailWhile lws (l1.dropWhile isPySpace) =
          dropTrailWhile isPySpace (l1.dropWhile isPySpace) :=
        dropTrail_congr_mem (fun x hx =>
          lws_eq_ws_of_ne (fun hc => hnl1 (hc ▸ dropWhile_mem hx)))
      rw [he1, he2, show joinNl [lineClean l1] = lineClean l1 from rfl,
        lineClean_core]
      exact red0_collapse _
    | cons l2 rest2 =>
      have hj : joinNl (l1 :: l2 :: rest2) = l1 ++ '\n' :: joinNl (l2 :: rest2) :=
        joinNl_cons_ne (by simp) l1
      have hdw : (joinNl (l1 :: l2 :: rest2)).dropWhile lws =
          l1.dropWhile isPySpace ++ '\n' :: joinNl (l2 :: rest2) := by
        rw [hj, dropWhile_append_stop lws_nl,
          dropWhile_congr_mem
            (fun x hx => lws_eq_ws_of_ne (fun hc => hnl1 (hc ▸ hx)))]
      have hred := joinrelAux rest2 l2
        (fun m hm => hnl m (List.mem_cons_of_mem l1 hm))
      rw [dropTrail_cons_neg lws_nl _] at hred
      have hRHS : joinNl ((l1 :: l2 :: rest2).map lineClean) =
          lineClean l1 ++ '\n' :: joinNl ((l2 :: rest2).map lineClean) := by
        show joinNl (lineClean l1 :: (l2 :: rest2).map lineClean) = _
        rw [joinNl_cons_ne (by simp) (lineClean l1)]
      rw [hdw, dropTrail_append_stop lws_nl, hRHS]
      exact red0_stripped_cont l1 hred rfl (by decide)

theorem msub_cleanLines_fix {u : List Char} (hfix : msub u = u) :
    msub (cleanLines u) = cleanLines u := by
  have h1 : msub (u.dropWhile lws) = u.dropWhile lws :=
    msub_fix_dropWhile lws_ws hfix
  have h2 : msub (dropTrailWhile lws (u.dropWhile lws)) =
      dropTrailWhile lws (u.dropWhile lws) :=
    msub_fix_dropTrail lws_ws h1
  have h3 := joinrelTop (splitNl u) (splitNl_no_nl u) (splitNl_ne_nil u)
  rw [join_split u] at h3
  have h4 := msub_red0_fix h2 h3
  show msub (pystrip (joinNl ((splitNl u).map lineClean))) = _
  unfold pystrip
  exact msub_fix_dropTrail (fun c h => h) (msub_fix_dropWhile (fun c h => h) h4)

/-! ## Claim C9 development, part 7: idempotence of the line pipeline -/

theorem dropTrail_length_le (p : Char → Bool) (l : List Char) :
    (dropTrailWhile p l).length ≤ l.length := by
  have h := dropWhile_length_le p l.reverse
  unfold dropTrailWhile
  simpa using h

theorem pystrip_fix_parts {m : List Char} (h : pystrip m = m) :
    m.dropWhile isPySpace = m ∧ dropTrailWhile isPySpace m = m := by
  have h1 : m.length ≤ (m.dropWhile isPySpace).length := by
    conv_lhs => rw [← h]
    exact dropTrail_length_le _ _
  have h2 : m.dropWhile isPySpace = m :=
    dropWhile_length_eq (Nat.le_antisymm (dropWhile_length_le _ _) h1)
  refine ⟨h2, ?_⟩
  have h3 := h
  unfold pystrip at h3
  rw [h2] at h3
  exact h3

theorem dropWhile_fix_head {α : Type} {p : α → Bool} {c : α} {t : List α}
    (h : (c :: t).dropWhile p = c :: t) : p c = false := by
  by_cases hp : p c = true
  · rw [List.dropWhile_cons_of_pos hp] at h
    have h1 := dropWhile_length_le p t
    have h2 := congrArg List.length h
    simp only [List.length_cons] at h2
    omega
  · simpa using hp

theorem stripped_head {m : List Char} {c : Char} {t : List Char}
    (h : pystrip m = m) (hm : m = c :: t) : isPySpace c = false := by
  obtain ⟨h1, _⟩ := pystrip_fix_parts h
  subst hm
  exact dropWhile_fix_head h1

theorem stripped_last {m : List Char} (h : pystrip m = m) (hne : m ≠ []) :
    ∃ y e, m = y ++ [e] ∧ isPySpace e = false := by
  obtain ⟨_, h2⟩ := pystrip_fix_parts h
  exact dropTrail_fix_snoc h2 hne

theorem snoc_last_eq {α : Type} {y z : List α} {a b : α}
    (h : y ++ [a] = z ++ [b]) : a = b := by
  have h2 := congrArg List.reverse h
  rw [List.reverse_append, List.reverse_append] at h2
  have h3 : a :: y.reverse = b :: z.reverse := by simpa using h2
  injection h3

theorem pystrip_fix_of_ends {x : List Char}
    (hh : ∀ c t, x = c :: t → isPySpace c = false)
    (hl : ∀ y e, x = y ++ [e] → isPySpace e = false) :
    pystrip x = x := by
  rcases x with _ | ⟨c, t⟩
  · rfl
  · have hc := hh c t rfl
    unfold pystrip
    rw [List.dropWhile_cons_of_neg (by simp [hc])]
    rcases List.eq_nil_or_concat (c :: t) with h1 | ⟨y, e, h1⟩
    · exact absurd h1 (by simp)
    · rw [List.concat_eq_append] at h1
      rw [h1]
      exact dropTrail_snoc_neg (hl y e h1) y

theorem pystrip_mem {l : List Char} {c : Char} (h : c ∈ pystrip l) : c ∈ l := by
  unfold pystrip at h
  exact dropWhile_mem (dropTrail_mem h)

theorem lineClean_mem {l : List Char} {c : Char} (h : c ∈ lineClean l) :
    c ∈ l ∨ c = ' ' := collapseGo_mem (pystrip_mem h)

theorem lineClean_no_nl {l : List Char} (h : ('\n' : Char) ∉ l) :
    ('\n' : Char) ∉ lineClean l := by
  intro hm
  rcases lineClean_mem hm with h1 | h1
  · exact h h1
  · exact absurd h1 (by decide)

theorem dropTrail_cons_nonws_ne_nil {c : Char} {t : List Char}
    (hc : isPySpace c = false) : dropTrailWhile isPySpace (c :: t) ≠ [] := by
  intro hcon
  obtain ⟨B, hB, hBws⟩ := dropTrail_decomp isPySpace (c :: t)
  rw [hcon, List.nil_append] at hB
  have h2 := hBws c (by rw [← hB]; exact List.mem_cons_self _ _)
  rw [hc] at h2
  exact absurd h2 (by simp)

theorem lineClean_stripped (l : List Char) :
    pystrip (lineClean l) = lineClean l := by
  rw [lineClean_core]
  rcases hm0 : l.dropWhile isPySpace with _ | ⟨c, m0t⟩
  · rfl
  · have hc : isPySpace c = false := dropWhile_head_false hm0
    have hDne := dropTrail_cons_nonws_ne_nil (t := m0t) hc
    obtain ⟨B, hB, hBws⟩ := dropTrail_decomp isPySpace (c :: m0t)
    rcases hD : dropTrailWhile isPySpace (c :: m0t) with _ | ⟨c2, D2⟩
    · exact absurd hD hDne
    · rw [hD, List.cons_append] at hB
      have hpair : c = c2 ∧ m0t = D2 ++ B := by simpa using hB
      have hDfix : dropTrailWhile isPySpace (c2 :: D2) = c2 :: D2 := by
        rw [← hD]
        exact dropTrail_idem _ _
      obtain ⟨y, e, hye, hew⟩ := dropTrail_fix_snoc hDfix (by simp)
      apply pystrip_fix_of_ends
      · intro c3 t3 h3
        unfold collapseWs at h3
        rw [collapseGo_cons_nonst (nonws_nonst (hpair.1 ▸ hc)) false D2] at h3
        injection h3 with h4 _
        rw [← h4]
        exact hpair.1 ▸ hc
      · intro y2 e2 h3
        have hsnoc : collapseWs (c2 :: D2) = collapseGo false y ++ [e] := by
          show collapseGo false (c2 :: D2) = _
          rw [hye, collapseGo_append_nonst
            (by intro d t hdt; injection hdt with h5 _; rw [← h5];
                exact nonws_nonst hew) y false,
            collapseGo_single_nonst (nonws_nonst hew)]
        rw [hsnoc] at h3
        rw [← snoc_last_eq h3]
        exact hew

theorem lineClean_idem (l : List Char) :
    lineClean (lineClean l) = lineClean l := by
  obtain ⟨hdw, hdt⟩ := pystrip_fix_parts (lineClean_stripped l)
  rw [lineClean_core (lineClean l), hdw, hdt, lineClean_core l, collapseWs_idem]

theorem map_id_of_fix {α : Type} {f : α → α} : ∀ (l : List α),
    (∀ a ∈ l, f a = a) → l.map f = l := by
  intro l
  induction l with
  | nil => intro _; rfl
  | cons a t ih =>
    intro h
    rw [List.map_cons, h a (List.mem_cons_self _ _),
      ih (fun x hx => h x (List.mem_cons_of_mem a hx))]

theorem pystrip_ws_prepend {r x : List Char}
    (hr : ∀ c ∈ r, isPySpace c = true) : pystrip (r ++ x) = pystrip x := by
  unfold pystrip
  rw [dropWhile_append_allp hr]

theorem pystrip_ws_append {r x : List Char}
    (hr : ∀ c ∈ r, isPySpace c = true) : pystrip (x ++ r) = pystrip x := by
  unfold pystrip
  rcases hx : x.dropWhile isPySpace with _ | ⟨c, t⟩
  · have hallx : ∀ c ∈ x, isPySpace c = true := dropWhile_nil_allp hx
    rw [dropWhile_allp (fun c hc => by
      rcases List.mem_append.mp hc with h1 | h1
      · exact hallx c h1
      · exact hr c h1)]
  · rw [dropWhile_append_of_ne_nil (by rw [hx]; simp) r, hx,
      dropTrail_append_allp hr]

theorem pystrip_join_dropEmpty : ∀ cs : List (List Char),
    pystrip (joinNl cs) = pystrip (joinNl (cs.dropWhile List.isEmpty)) := by
  intro cs
  induction cs with
  | nil => rfl
  | cons m cs2 ih =>
    cases m with
    | nil =>
      rw [List.dropWhile_cons_of_pos (by rfl)]
      cases cs2 with
      | nil => rfl
      | cons a t =>
        rw [joinNl_cons_ne (by simp) [], List.nil_append,
          show ('\n' :: joinNl (a :: t)) = ['\n'] ++ joinNl (a :: t) from rfl,
          pystrip_ws_prepend (by intro c hc; rw [List.mem_singleton.mp hc]; decide)]
        exact ih
    | cons x xs =>
      rw [List.dropWhile_cons_of_neg (by simp)]

theorem pystrip_join_snoc_empty : ∀ cs : List (List Char),
    pystrip (joinNl (cs ++ [[]])) = pystrip (joinNl cs) := by
  intro cs
  cases cs with
  | nil => rfl
  | cons m t =>
    rw [joinNl_snoc (m :: t) [] (by simp)]
    exact pystrip_ws_append
      (by intro c hc; rw [List.mem_singleton.mp hc]; decide)

theorem pystrip_join_dropEmptyRev : ∀ rs : List (List Char),
    pystrip (joinNl rs.reverse) =
      pystrip (joinNl ((rs.dropWhile List.isEmpty).reverse)) := by
  intro rs
  induction rs with
  | nil => rfl
  | cons m t ih =>
    cases m with
    | nil =>
      rw [List.dropWhile_cons_of_pos (by rfl), List.reverse_cons,
        pystrip_join_snoc_empty t.reverse, ih]
    | cons x xs =>
      rw [List.dropWhile_cons_of_neg (by simp)]

theorem pystrip_join_trim (cs : List (List Char)) :
    pystrip (joinNl cs) = pystrip (joinNl (trimEmptyLines cs)) := by
  rw [pystrip_join_dropEmpty cs]
  have h := pystrip_join_dropEmptyRev (cs.dropWhile List.isEmpty).reverse
  rw [List.reverse_reverse] at h
  unfold trimEmptyLines
  exact h

theorem trim_sub {cs : List (List Char)} {m : List Char}
    (h : m ∈ trimEmptyLines cs) : m ∈ cs := by
  unfold trimEmptyLines at h
  exact dropWhile_mem (List.mem_reverse.mp (dropWhile_mem (List.mem_reverse.mp h)))

theorem dropWhile_snoc_keep {α : Type} {p : α → Bool} {m : α}
    (hm : p m = false) : ∀ A : List α, ∃ W, (A ++ [m]).dropWhile p = W ++ [m] := by
  intro A
  induction A with
  | nil =>
    refine ⟨[], ?_⟩
    rw [List.nil_append]
    exact List.dropWhile_cons_of_neg (by simp [hm])
  | cons a A2 ih =>
    by_cases hp : p a = true
    · obtain ⟨W, hW⟩ := ih
      refine ⟨W, ?_⟩
      rw [List.cons_append, List.dropWhile_cons_of_pos hp, hW]
    · refine ⟨a :: A2, ?_⟩
      rw [List.cons_append, List.dropWhile_cons_of_neg hp]

theorem ne_nil_of_isEmpty_false {α : Type} {m : List α}
    (h : m.isEmpty = false) : m ≠ [] := by
  intro hcon
  subst hcon
  simp at h

theorem trim_head {cs : List (List Char)} {m : List Char}
    {ds : List (List Char)} (h : trimEmptyLines cs = m :: ds) : m ≠ [] := by
  unfold trimEmptyLines at h
  rcases hd : cs.dropWhile List.isEmpty with _ | ⟨m0, ds0⟩
  · rw [hd] at h
    simp at h
  · have hm0 : List.isEmpty m0 = false := dropWhile_head_false hd
    rw [hd, List.reverse_cons] at h
    obtain ⟨W, hW⟩ := dropWhile_snoc_keep hm0 ds0.reverse
    rw [hW, List.reverse_append] at h
    have h2 : m0 :: W.reverse = m :: ds := by simpa using h
    injection h2 with h3 _
    rw [← h3]
    exact ne_nil_of_isEmpty_false hm0

theorem trim_last {cs : List (List Char)} {ds : List (List Char)}
    {mL : List Char} (h : trimEmptyLines cs = ds ++ [mL]) : mL ≠ [] := by
  unfold trimEmptyLines at h
  have h2 : (cs.dropWhile List.isEmpty).reverse.dropWhile List.isEmpty =
      mL :: ds.reverse := by
    have h3 := congrArg List.reverse h
    rw [List.reverse_reverse, List.reverse_append] at h3
    simpa using h3
  exact ne_nil_of_isEmpty_false (dropWhile_head_false h2)

theorem pystrip_join_id : ∀ (ms : List (List Char)),
    (∀ m ∈ ms, pystrip m = m) →
    (∀ m ds, ms = m :: ds → m ≠ []) →
    (∀ ds mL, ms = ds ++ [mL] → mL ≠ []) → ms ≠ [] →
    pystrip (joinNl ms) = joinNl ms := by
  intro ms hstr hh hl hne
  apply pystrip_fix_of_ends
  · intro c t hct
    rcases ms with _ | ⟨m, ds⟩
    · exact absurd rfl hne
    · have hm := hh m ds rfl
      rcases hm2 : m with _ | ⟨c0, t0⟩
      · exact absurd hm2 hm
      · have hc0 : isPySpace c0 = false :=
          stripped_head (hstr m (List.mem_cons_self _ _)) hm2
        have hj : ∃ tt, joinNl (m :: ds) = c0 :: tt := by
          cases ds with
          | nil => exact ⟨t0, hm2⟩
          | cons a t2 =>
            refine ⟨t0 ++ '\n' :: joinNl (a :: t2), ?_⟩
            rw [joinNl_cons_ne (by simp) m, hm2, List.cons_append]
        obtain ⟨tt, htt⟩ := hj
        rw [htt] at hct
        injection hct with h4 _
        rw [← h4]
        exact hc0
  · intro y e hye
    rcases List.eq_nil_or_concat ms with rfl | ⟨ds2, mL, hms⟩
    · exact absurd rfl hne
    · rw [List.concat_eq_append] at hms
      have hmL := hl ds2 mL hms
      obtain ⟨y0, e0, hy0, he0⟩ :=
        stripped_last (hstr mL (by rw [hms]; simp)) hmL
      have hj : ∃ Z, joinNl ms = Z ++ [e0] := by
        cases ds2 with
        | nil =>
          refine ⟨y0, ?_⟩
          rw [hms, List.nil_append]
          exact hy0
        | cons a t2 =>
          refine ⟨joinNl (a :: t2) ++ '\n' :: y0, ?_⟩
          rw [hms, joinNl_snoc (a :: t2) mL (by simp), hy0]
          simp
      obtain ⟨Z, hZ⟩ := hj
      rw [hZ] at hye
      rw [← snoc_last_eq hye]
      exact he0

theorem cleanLines_idem (u : List Char) :
    cleanLines (cleanLines u) = cleanLines u := by
  have hprops : ∀ m ∈ (splitNl u).map lineClean,
      pystrip m = m ∧ ('\n' : Char) ∉ m ∧ lineClean m = m := by
    intro m hm
    obtain ⟨x, hx, rfl⟩ := List.mem_map.mp hm
    exact ⟨lineClean_stripped x, lineClean_no_nl (splitNl_no_nl u x hx),
      lineClean_idem x⟩
  show cleanLines (pystrip (joinNl ((splitNl u).map lineClean))) =
    pystrip (joinNl ((splitNl u).map lineClean))
  revert hprops
  generalize (splitNl u).map lineClean = cs
  intro hprops
  rw [pystrip_join_trim cs]
  rcases htr : trimEmptyLines cs with _ | ⟨m, ds⟩
  · rfl
  · have hdt_props : ∀ x ∈ m :: ds,
        pystrip x = x ∧ ('\n' : Char) ∉ x ∧ lineClean x = x := by
      intro x hx
      exact hprops x (trim_sub (by rw [htr]; exact hx))
    have hid : pystrip (joinNl (m :: ds)) = joinNl (m :: ds) := by
      apply pystrip_join_id
      · intro x hx
        exact (hdt_props x hx).1
      · intro m2 ds2 heq
        injection heq with h1 _
        rw [← h1]
        exact trim_head htr
      · intro ds2 mL heq
        exact trim_last (by rw [htr]; exact heq)
      · simp
    rw [hid]
    show pystrip (joinNl ((splitNl (joinNl (m :: ds))).map lineClean)) = _
    rw [split_join (m :: ds) (fun x hx => (hdt_props x hx).2.1) (by simp),
      map_id_of_fix (m :: ds) (fun x hx => (hdt_props x hx).2.2)]
    exact hid

/-! ## Claim C9 development, part 8: zero-width spaces and final assembly -/

theorem no_zwsp_removeZWSP (l : List Char) : zwsp ∉ removeZWSP l := by
  intro h
  have h2 := List.of_mem_filter h
  simp at h2

theorem removeZWSP_id {l : List Char} (h : zwsp ∉ l) : removeZWSP l = l := by
  unfold removeZWSP
  rw [List.filter_eq_self]
  intro a ha
  simp only [decide_eq_true_eq]
  intro hcon
  exact h (hcon ▸ ha)

theorem msub_no_zwsp {l : List Char} (h : zwsp ∉ l) : zwsp ∉ msub l := by
  intro hm
  rcases msub_mem hm with h1 | h1
  · exact h h1
  · exact absurd h1 (by decide)

theorem cleanLines_no_zwsp {l : List Char} (h : zwsp ∉ l) :
    zwsp ∉ cleanLines l := by
  intro hm
  have h1 := pystrip_mem hm
  rcases joinNl_mem h1 with h2 | ⟨m, hmem, h3⟩
  · exact absurd h2 (by decide)
  · obtain ⟨x, hx, rfl⟩ := List.mem_map.mp hmem
    rcases lineClean_mem h3 with h4 | h4
    · exact h (splitNl_mem_chars l hx h4)
    · exact absurd h4 (by decide)

theorem clean_content_core_idem (l : List Char) :
    clean_content_core (clean_content_core l) = clean_content_core l := by
  show cleanLines (msub (removeZWSP (cleanLines (msub (removeZWSP l))))) = _
  rw [removeZWSP_id (cleanLines_no_zwsp (msub_no_zwsp (no_zwsp_removeZWSP l))),
    msub_cleanLines_fix (msub_idem (removeZWSP l))]
  exact cleanLines_idem _

/-! ## Claim C9: idempotence of `clean_content` -/

/-- Claim C9, confirmed: for every input string, applying
`DiscordHandler.clean_content` (removal of U+200B, the mention-bracket
substitution `re.sub(r'\[@\s*([^\]]+)\]', r'[@\1]')`, the per-line collapse
`re.sub(r'[ \t]+', ' ', line).strip()` over `split('\n')`, the `'\n'` join
and the final `.strip()`) twice yields the same result as applying it
once. -/
theorem C9_clean_content_idempotent (s : String) :
    clean_content (clean_content s) = clean_content s := by
  show (⟨clean_content_core (clean_content_core s.data)⟩ : String) =
    ⟨clean_content_core s.data⟩
  rw [clean_content_core_idem]

end XPost

